import Mathlib

/-!
Verification of the srttranslate translation-service core.

This file embeds the translation service of the repository (the
`LRUCache` result cache, `TranslationService.translate` /
`TranslationService.translateBatch`, and the `useTranslation` session
hook) as executable Lean definitions and proves the specification
claims about them.

Conventions of the embedding:
* JavaScript `Map<string, string>` is modelled as an association list
  with in-place overwrite on `set`, append for fresh keys (insertion
  order), and first-occurrence removal on `delete`.
* JavaScript string truthiness (`if (value)`) is modelled as
  `value ≠ ""` for strings known to be defined.
* `Math.floor(Math.sqrt(n) * 5)` is modelled exactly as `⌊√(25·n)⌋`
  over the naturals, and floating-point divisions that are floored are
  modelled as natural-number division of the corresponding products.
* Promises and timing are modelled by explicit small-step machines for
  the concurrent claims and by a sequential interpreter with an
  outcome oracle for the sequential claims.
-/

/-! ## JavaScript `Map` model (association list) -/

/-- `Map.get`: value of the first entry with the given key. -/
def mapGet : List (String × String) → String → Option String
  | [], _ => none
  | (k', v) :: rest, k => if k' = k then some v else mapGet rest k

/-- `Map.set`: overwrite in place if the key is present, append otherwise
(JavaScript `Map` preserves insertion order). -/
def mapSet : List (String × String) → String → String → List (String × String)
  | [], k, v => [(k, v)]
  | (k', v') :: rest, k, v =>
    if k' = k then (k, v) :: rest else (k', v') :: mapSet rest k v

/-- `Map.delete`: remove the first entry with the given key. -/
def mapDel : List (String × String) → String → List (String × String)
  | [], _ => []
  | (k', v') :: rest, k => if k' = k then rest else (k', v') :: mapDel rest k

/-- `Map.has`. -/
def mapHas (m : List (String × String)) (k : String) : Bool :=
  (mapGet m k).isSome

@[simp] theorem mapGet_nil (k : String) : mapGet [] k = none := rfl

theorem mapGet_cons (k' : String) (v : String) (rest : List (String × String)) (k : String) :
    mapGet ((k', v) :: rest) k = if k' = k then some v else mapGet rest k := rfl

@[simp] theorem mapGet_cons_self (k v : String) (rest : List (String × String)) :
    mapGet ((k, v) :: rest) k = some v := by simp [mapGet]

theorem mapGet_cons_ne (k' v k : String) (rest : List (String × String)) (h : k' ≠ k) :
    mapGet ((k', v) :: rest) k = mapGet rest k := by simp [mapGet, h]

/-- A key with no entry in the list looks up to `none`. -/
theorem mapGet_eq_none_of_forall (m : List (String × String)) (k : String)
    (h : ∀ p ∈ m, p.1 ≠ k) : mapGet m k = none := by
  induction m with
  | nil => rfl
  | cons p rest ih =>
    obtain ⟨k', v⟩ := p
    have hk : k' ≠ k := h (k', v) (by simp)
    rw [mapGet_cons_ne _ _ _ _ hk]
    exact ih (fun q hq => h q (by simp [hq]))

theorem mem_of_mapGet_eq_some {m : List (String × String)} {k v : String}
    (h : mapGet m k = some v) : (k, v) ∈ m := by
  induction m with
  | nil => simp [mapGet] at h
  | cons p rest ih =>
    obtain ⟨k', v'⟩ := p
    by_cases hk : k' = k
    · subst hk
      simp [mapGet] at h
      simp [h]
    · rw [mapGet_cons_ne _ _ _ _ hk] at h
      simp [ih h]

/-- Key membership in the map is equivalent to a successful lookup. -/
theorem mapGet_isSome_iff (m : List (String × String)) (k : String) :
    (mapGet m k).isSome = true ↔ k ∈ m.map Prod.fst := by
  induction m with
  | nil => simp [mapGet]
  | cons p rest ih =>
    obtain ⟨k', v'⟩ := p
    by_cases hk : k' = k
    · subst hk; simp [mapGet]
    · rw [mapGet_cons_ne _ _ _ _ hk]
      simp [ih, Ne.symm hk]

theorem mapGet_eq_none_iff (m : List (String × String)) (k : String) :
    mapGet m k = none ↔ k ∉ m.map Prod.fst := by
  rw [← mapGet_isSome_iff]
  cases mapGet m k <;> simp

theorem mem_map_fst_cons (k k' v' : String) (m : List (String × String)) :
    k ∈ ((k', v') :: m).map Prod.fst ↔ k = k' ∨ k ∈ m.map Prod.fst := by
  simp

@[simp] theorem mapSet_map_fst_of_mem (m : List (String × String)) (k v : String)
    (h : k ∈ m.map Prod.fst) : (mapSet m k v).map Prod.fst = m.map Prod.fst := by
  induction m with
  | nil => simp at h
  | cons p rest ih =>
    obtain ⟨k', v'⟩ := p
    by_cases hk : k' = k
    · subst hk; simp [mapSet]
    · rw [mem_map_fst_cons] at h
      rcases h with h | h
      · exact absurd h.symm hk
      · simp [mapSet, hk, ih h]

theorem mapSet_map_fst_of_not_mem (m : List (String × String)) (k v : String)
    (h : k ∉ m.map Prod.fst) : (mapSet m k v).map Prod.fst = m.map Prod.fst ++ [k] := by
  induction m with
  | nil => simp [mapSet]
  | cons p rest ih =>
    obtain ⟨k', v'⟩ := p
    rw [mem_map_fst_cons] at h
    push_neg at h
    simp [mapSet, Ne.symm h.1, ih h.2]

theorem mapGet_mapSet_self (m : List (String × String)) (k v : String) :
    mapGet (mapSet m k v) k = some v := by
  induction m with
  | nil => simp [mapSet, mapGet]
  | cons p rest ih =>
    obtain ⟨k', v'⟩ := p
    by_cases hk : k' = k
    · subst hk; simp [mapSet, mapGet]
    · simp [mapSet, hk, mapGet_cons_ne _ _ _ _ hk, ih]

theorem mapGet_mapSet_ne (m : List (String × String)) (k v k' : String) (h : k ≠ k') :
    mapGet (mapSet m k v) k' = mapGet m k' := by
  induction m with
  | nil => simp [mapSet, mapGet, h]
  | cons p rest ih =>
    obtain ⟨k₀, v₀⟩ := p
    by_cases hk : k₀ = k
    · subst hk
      have hset : mapSet ((k₀, v₀) :: rest) k₀ v = (k₀, v) :: rest := by
        simp [mapSet]
      rw [hset, mapGet_cons_ne _ _ _ _ h, mapGet_cons_ne _ _ _ _ h]
    · simp only [mapSet, if_neg hk]
      by_cases hx : k₀ = k'
      · subst hx
        simp [mapGet]
      · rw [mapGet_cons_ne _ _ _ _ hx, mapGet_cons_ne _ _ _ _ hx, ih]

theorem mapSet_length_of_mem (m : List (String × String)) (k v : String)
    (h : k ∈ m.map Prod.fst) : (mapSet m k v).length = m.length := by
  induction m with
  | nil => simp at h
  | cons p rest ih =>
    obtain ⟨k', v'⟩ := p
    by_cases hk : k' = k
    · subst hk; simp [mapSet]
    · rw [mem_map_fst_cons] at h
      rcases h with h | h
      · exact absurd h.symm hk
      · simp [mapSet, hk, ih h]

theorem mapSet_length_of_not_mem (m : List (String × String)) (k v : String)
    (h : k ∉ m.map Prod.fst) : (mapSet m k v).length = m.length + 1 := by
  induction m with
  | nil => simp [mapSet]
  | cons p rest ih =>
    obtain ⟨k', v'⟩ := p
    rw [mem_map_fst_cons] at h
    push_neg at h
    simp [mapSet, Ne.symm h.1, ih h.2]

theorem nodup_map_fst_cons (k' v' : String) (m : List (String × String))
    (h : (((k', v') :: m).map Prod.fst).Nodup) :
    k' ∉ m.map Prod.fst ∧ (m.map Prod.fst).Nodup := by
  simp only [List.map_cons, List.nodup_cons] at h
  exact h

theorem mapDel_map_fst (m : List (String × String)) (k : String)
    (h : (m.map Prod.fst).Nodup) :
    (mapDel m k).map Prod.fst = (m.map Prod.fst).filter (fun x => x ≠ k) := by
  induction m with
  | nil => simp [mapDel]
  | cons p rest ih =>
    obtain ⟨k', v'⟩ := p
    obtain ⟨h1, h2⟩ := nodup_map_fst_cons _ _ _ h
    by_cases hk : k' = k
    · subst hk
      have hdel : mapDel ((k', v') :: rest) k' = rest := by
        simp [mapDel]
      rw [hdel, List.map_cons, List.filter_cons_of_neg (by simp)]
      rw [List.filter_eq_self.mpr]
      intro a ha
      simp only [ne_eq, decide_eq_true_eq]
      intro hak
      subst hak
      exact h1 ha
    · have hdel : mapDel ((k', v') :: rest) k = (k', v') :: mapDel rest k := by
        simp [mapDel, hk]
      rw [hdel, List.map_cons, List.map_cons, List.filter_cons_of_pos (by simp [hk]),
        ih h2]

theorem mapDel_length_of_mem (m : List (String × String)) (k : String)
    (h : k ∈ m.map Prod.fst) : (mapDel m k).length + 1 = m.length := by
  induction m with
  | nil => simp at h
  | cons p rest ih =>
    obtain ⟨k', v'⟩ := p
    by_cases hk : k' = k
    · subst hk; simp [mapDel]
    · rw [mem_map_fst_cons] at h
      rcases h with h | h
      · exact absurd h.symm hk
      · simp [mapDel, hk, ih h]

theorem mapDel_length_of_not_mem (m : List (String × String)) (k : String)
    (h : k ∉ m.map Prod.fst) : mapDel m k = m := by
  induction m with
  | nil => rfl
  | cons p rest ih =>
    obtain ⟨k', v'⟩ := p
    rw [mem_map_fst_cons] at h
    push_neg at h
    simp [mapDel, Ne.symm h.1, ih h.2]

theorem mapGet_mapDel_of_nodup (m : List (String × String)) (k k' : String)
    (h : (m.map Prod.fst).Nodup) :
    mapGet (mapDel m k) k' = if k' = k then none else mapGet m k' := by
  induction m with
  | nil => simp [mapDel, mapGet]
  | cons p rest ih =>
    obtain ⟨k₀, v₀⟩ := p
    obtain ⟨h1, h2⟩ := nodup_map_fst_cons _ _ _ h
    by_cases hk : k₀ = k
    · subst hk
      have hdel : mapDel ((k₀, v₀) :: rest) k₀ = rest := by
        simp [mapDel]
      rw [hdel]
      by_cases hx : k' = k₀
      · subst hx
        rw [if_pos rfl]
        refine mapGet_eq_none_of_forall _ _ (fun q hq hq1 => ?_)
        subst hq1
        exact h1 (List.mem_map_of_mem Prod.fst hq)
      · rw [if_neg hx, mapGet_cons_ne _ _ _ _ (fun hh => hx hh.symm)]
    · have hdel : mapDel ((k₀, v₀) :: rest) k = (k₀, v₀) :: mapDel rest k := by
        simp [mapDel, hk]
      rw [hdel]
      by_cases hx : k₀ = k'
      · subst hx
        rw [if_neg (fun hh => hk hh)]
        simp [mapGet]
      · rw [mapGet_cons_ne _ _ _ _ hx, ih h2, mapGet_cons_ne _ _ _ _ hx]

/-- Values stored via `mapSet` with non-empty values stay non-empty. -/
theorem mapSet_vals_ne (m : List (String × String)) (k v : String)
    (hm : ∀ p ∈ m, p.2 ≠ "") (hv : v ≠ "") : ∀ p ∈ mapSet m k v, p.2 ≠ "" := by
  induction m with
  | nil => intro p hp; simp [mapSet] at hp; simp [hp, hv]
  | cons q rest ih =>
    obtain ⟨k', v'⟩ := q
    intro p hp
    by_cases hk : k' = k
    · subst hk
      simp [mapSet] at hp
      rcases hp with hp | hp
      · simp [hp, hv]
      · exact hm p (by simp [hp])
    · simp [mapSet, hk] at hp
      rcases hp with hp | hp
      · exact hm p (by simp [hp])
      · exact ih (fun q hq => hm q (by simp [hq])) p hp

theorem mapDel_vals_ne (m : List (String × String)) (k : String)
    (hm : ∀ p ∈ m, p.2 ≠ "") : ∀ p ∈ mapDel m k, p.2 ≠ "" := by
  induction m with
  | nil => intro p hp; simp [mapDel] at hp
  | cons q rest ih =>
    obtain ⟨k', v'⟩ := q
    intro p hp
    by_cases hk : k' = k
    · subst hk
      simp [mapDel] at hp
      exact hm p (by simp [hp])
    · simp [mapDel, hk] at hp
      rcases hp with hp | hp
      · exact hm p (by simp [hp])
      · exact ih (fun q hq => hm q (by simp [hq])) p hp

/-! ## `LRUCache` (result cache of the translation service) -/

/-- The `LRUCache` class: a `Map` from composite keys to translated text plus
a recency list `keys`, most-recently-used first. -/
structure LRUCache where
  cache : List (String × String)
  maxSize : Nat
  keys : List String
  deriving DecidableEq, Repr

namespace LRUCache

/-- `getKey`: the composite cache key `${sourceLang}_${targetLang}_${text}`. -/
def mkKey (sourceLang targetLang text : String) : String :=
  sourceLang ++ "_" ++ targetLang ++ "_" ++ text

/-- `new LRUCache()` with the default `maxSize = 1000`. -/
def init : LRUCache := ⟨[], 1000, []⟩

/-- `LRUCache.get`.  Returns the looked-up value together with the updated
cache.  Mirrors the JavaScript truthiness test `if (value)`: a stored empty
string is returned but *not* promoted to most-recently-used. -/
def get (c : LRUCache) (sourceLang targetLang text : String) :
    Option String × LRUCache :=
  let key := mkKey sourceLang targetLang text
  match mapGet c.cache key with
  | none => (none, c)
  | some v =>
    if v = "" then
      (some v, c)
    else
      (some v, { c with keys := key :: c.keys.filter (fun k => k ≠ key) })

/-- Handling of `const oldestKey = this.keys.pop()` followed by
`if (oldestKey) { this.cache.delete(oldestKey) }`: the popped key is deleted
from the map only when it is defined and truthy (non-empty). -/
def evictOldest (m : List (String × String)) : Option String → List (String × String)
  | some oldestKey => if oldestKey = "" then m else mapDel m oldestKey
  | none => m

/-- `LRUCache.set`.  If the key exists it is overwritten and promoted; if the
cache is at capacity the key popped from the back of `keys` is deleted
(under the truthiness test `if (oldestKey)`); the new key becomes
most-recently-used. -/
def set (c : LRUCache) (sourceLang targetLang text translatedText : String) :
    LRUCache :=
  let key := mkKey sourceLang targetLang text
  if mapHas c.cache key then
    { c with cache := mapSet c.cache key translatedText,
             keys := key :: c.keys.filter (fun k => k ≠ key) }
  else if c.maxSize ≤ c.cache.length then
    { c with cache := mapSet (evictOldest c.cache c.keys.getLast?) key translatedText,
             keys := key :: c.keys.dropLast }
  else
    { c with cache := mapSet c.cache key translatedText,
             keys := key :: c.keys }

/-- `LRUCache.clear`. -/
def clear (c : LRUCache) : LRUCache :=
  ⟨[], c.maxSize, []⟩

/-- `LRUCache.size`. -/
def size (c : LRUCache) : Nat :=
  c.cache.length

end LRUCache

/-- One operation of the result-cache API. -/
inductive CacheOp
  | get (sourceLang targetLang text : String)
  | set (sourceLang targetLang text translatedText : String)
  | clear
  deriving DecidableEq, Repr

/-- Run one cache operation. -/
def LRUCache.runOp (c : LRUCache) : CacheOp → LRUCache
  | .get s t x => (c.get s t x).2
  | .set s t x v => c.set s t x v
  | .clear => c.clear

/-- Run a sequence of cache operations from a starting cache. -/
def LRUCache.runOps (c : LRUCache) (ops : List CacheOp) : LRUCache :=
  ops.foldl LRUCache.runOp c

/-- Modelled from the spec: the recency order of the cache keys,
most-recently-accessed first.  "Accessing (get or set) an entry promotes it
to most-recently-used"; inserting a fresh key at capacity "evicts the
least-recently-accessed entry", i.e. the last key of this list. -/
def specTouch (maxSize : Nat) (r : List String) : CacheOp → List String
  | .get s t x =>
    let key := LRUCache.mkKey s t x
    if key ∈ r then key :: r.filter (fun k => k ≠ key) else r
  | .set s t x _ =>
    let key := LRUCache.mkKey s t x
    if key ∈ r then key :: r.filter (fun k => k ≠ key)
    else if maxSize ≤ r.length then key :: r.dropLast
    else key :: r
  | .clear => []

/-- Modelled from the spec: the recency order reached after a sequence of
operations on an initially empty cache of the given capacity. -/
def specRecency (maxSize : Nat) (ops : List CacheOp) : List String :=
  ops.foldl (specTouch maxSize) []

/-- An operation whose stored value (if any) is a non-empty string. -/
def CacheOp.valOk : CacheOp → Prop
  | .set _ _ _ v => v ≠ ""
  | _ => True

instance : DecidablePred CacheOp.valOk := by
  intro op
  cases op <;> simp [CacheOp.valOk] <;> infer_instance

/-- Well-formedness invariant of the implementation cache. -/
structure LRUCache.WF (c : LRUCache) : Prop where
  one_le_max : 1 ≤ c.maxSize
  nodup_keys : c.keys.Nodup
  nodup_cache : (c.cache.map Prod.fst).Nodup
  mem_iff : ∀ k, k ∈ c.keys ↔ k ∈ c.cache.map Prod.fst
  len_eq : c.cache.length = c.keys.length
  size_le : c.cache.length ≤ c.maxSize
  keys_ne : ∀ k ∈ c.keys, k ≠ ""

/-- All cached values are non-empty strings. -/
def LRUCache.ValsNe (c : LRUCache) : Prop :=
  ∀ p ∈ c.cache, p.2 ≠ ""

theorem LRUCache.WF_init : LRUCache.WF LRUCache.init := by
  constructor <;> simp [LRUCache.init]

/-! ### List helper lemmas for the LRU proofs -/

theorem filter_ne_of_not_mem (l : List String) (a : String) (h : a ∉ l) :
    l.filter (fun k => k ≠ a) = l := by
  rw [List.filter_eq_self]
  intro b hb
  simp only [ne_eq, decide_eq_true_eq]
  intro hba
  subst hba
  exact h hb

theorem mem_filter_ne (l : List String) (a k : String) :
    k ∈ l.filter (fun x => x ≠ a) ↔ k ∈ l ∧ k ≠ a := by
  simp [List.mem_filter]

theorem filter_ne_length_of_nodup (l : List String) (a : String)
    (hn : l.Nodup) (ha : a ∈ l) :
    (l.filter (fun k => k ≠ a)).length + 1 = l.length := by
  induction l with
  | nil => simp at ha
  | cons b rest ih =>
    rw [List.nodup_cons] at hn
    rcases List.mem_cons.mp ha with hb | hb
    · subst hb
      rw [List.filter_cons_of_neg (by simp), filter_ne_of_not_mem rest a hn.1]
      simp
    · have hba : b ≠ a := fun hh => hn.1 (hh ▸ hb)
      rw [List.filter_cons_of_pos (by simp [hba])]
      simp only [List.length_cons]
      rw [← ih hn.2 hb]

theorem nodup_cons_filter_ne (l : List String) (a : String) (hn : l.Nodup) :
    (a :: l.filter (fun k => k ≠ a)).Nodup := by
  rw [List.nodup_cons]
  constructor
  · intro h
    exact ((mem_filter_ne l a a).mp h).2 rfl
  · exact hn.filter _

theorem getLast?_eq_some_split (l : List String) (a : String)
    (h : l.getLast? = some a) : l.dropLast ++ [a] = l := by
  cases l with
  | nil => simp at h
  | cons b rest =>
    have hne : (b :: rest) ≠ [] := by simp
    have := List.dropLast_append_getLast hne
    rwa [List.getLast_eq_iff_getLast?_eq_some hne |>.mpr h] at this
  
theorem mem_of_getLast?_eq_some (l : List String) (a : String)
    (h : l.getLast? = some a) : a ∈ l := by
  rw [← getLast?_eq_some_split l a h]
  simp

theorem not_mem_dropLast_of_nodup (l : List String) (a : String)
    (hn : l.Nodup) (h : l.getLast? = some a) : a ∉ l.dropLast := by
  intro hmem
  have hsplit := getLast?_eq_some_split l a h
  rw [← hsplit] at hn
  rcases List.nodup_append.mp hn with ⟨-, -, hdisj⟩
  exact hdisj hmem (by simp)

theorem mem_dropLast_iff_of_nodup (l : List String) (a k : String)
    (hn : l.Nodup) (h : l.getLast? = some a) :
    k ∈ l.dropLast ↔ k ∈ l ∧ k ≠ a := by
  have hsplit := getLast?_eq_some_split l a h
  constructor
  · intro hk
    refine ⟨by rw [← hsplit]; exact List.mem_append_left _ hk, ?_⟩
    intro hka
    subst hka
    exact not_mem_dropLast_of_nodup l k hn h hk
  · intro ⟨hk, hka⟩
    rw [← hsplit] at hk
    rcases List.mem_append.mp hk with hk | hk
    · exact hk
    · simp at hk
      exact absurd hk hka

theorem dropLast_length_of_getLast? (l : List String) (a : String)
    (h : l.getLast? = some a) : l.dropLast.length + 1 = l.length := by
  conv_rhs => rw [← getLast?_eq_some_split l a h]
  simp

/-! ### Well-formedness preservation -/

theorem LRUCache.mkKey_ne_empty (s t x : String) : LRUCache.mkKey s t x ≠ "" := by
  intro h
  have : (LRUCache.mkKey s t x).length = 0 := by rw [h]; rfl
  rw [LRUCache.mkKey] at this
  simp [String.length_append] at this
  have : ("_" : String).length = 1 := rfl
  omega

/-- `get` never changes the stored map, only the recency list. -/
theorem LRUCache.get_cache_eq (c : LRUCache) (s t x : String) :
    ((c.get s t x).2).cache = c.cache := by
  rw [LRUCache.get]
  cases h : mapGet c.cache (LRUCache.mkKey s t x) with
  | none => rfl
  | some v =>
    by_cases hv : v = "" <;> simp [h, hv]

theorem LRUCache.get_maxSize_eq (c : LRUCache) (s t x : String) :
    ((c.get s t x).2).maxSize = c.maxSize := by
  rw [LRUCache.get]
  cases h : mapGet c.cache (LRUCache.mkKey s t x) with
  | none => rfl
  | some v =>
    by_cases hv : v = "" <;> simp [h, hv]

theorem LRUCache.set_maxSize_eq (c : LRUCache) (s t x v : String) :
    (c.set s t x v).maxSize = c.maxSize := by
  rw [LRUCache.set]
  by_cases h1 : mapHas c.cache (LRUCache.mkKey s t x) <;>
    by_cases h2 : c.maxSize ≤ c.cache.length <;> simp [h1, h2]

theorem LRUCache.runOp_maxSize_eq (c : LRUCache) (op : CacheOp) :
    (c.runOp op).maxSize = c.maxSize := by
  cases op with
  | get s t x => exact LRUCache.get_maxSize_eq c s t x
  | set s t x v => exact LRUCache.set_maxSize_eq c s t x v
  | clear => rfl

theorem LRUCache.runOps_maxSize_eq (c : LRUCache) (ops : List CacheOp) :
    (c.runOps ops).maxSize = c.maxSize := by
  induction ops generalizing c with
  | nil => rfl
  | cons op rest ih =>
    rw [LRUCache.runOps, List.foldl_cons, ← LRUCache.runOps, ih,
      LRUCache.runOp_maxSize_eq]

theorem LRUCache.WF_get (c : LRUCache) (s t x : String) (h : c.WF) :
    ((c.get s t x).2).WF := by
  rw [LRUCache.get]
  cases hm : mapGet c.cache (LRUCache.mkKey s t x) with
  | none => exact h
  | some v =>
    by_cases hv : v = ""
    · simpa [hm, hv] using h
    · simp only [hm, hv, if_neg, ite_false]
      set key := LRUCache.mkKey s t x with hkey
      have hmemf : key ∈ c.cache.map Prod.fst := by
        rw [← mapGet_isSome_iff, hm]; rfl
      have hmemk : key ∈ c.keys := (h.mem_iff key).mpr hmemf
      constructor
      · exact h.one_le_max
      · exact nodup_cons_filter_ne c.keys key h.nodup_keys
      · exact h.nodup_cache
      · intro k
        simp only
        rw [List.mem_cons, mem_filter_ne]
        constructor
        · rintro (rfl | ⟨hk, -⟩)
          · exact hmemf
          · exact (h.mem_iff k).mp hk
        · intro hk
          by_cases hkk : k = key
          · exact Or.inl hkk
          · exact Or.inr ⟨(h.mem_iff k).mpr hk, hkk⟩
      · simp only [List.length_cons]
        rw [filter_ne_length_of_nodup c.keys key h.nodup_keys hmemk]
        exact h.len_eq
      · exact h.size_le
      · intro k hk
        rcases List.mem_cons.mp hk with rfl | hk
        · exact LRUCache.mkKey_ne_empty s t x
        · exact h.keys_ne k ((mem_filter_ne _ _ _).mp hk).1

theorem LRUCache.WF_set (c : LRUCache) (s t x v : String) (h : c.WF) :
    (c.set s t x v).WF := by
  rw [LRUCache.set]
  set key := LRUCache.mkKey s t x with hkey
  by_cases h1 : mapHas c.cache key
  · -- key already present: overwrite and promote
    have hmemf : key ∈ c.cache.map Prod.fst := by
      rw [← mapGet_isSome_iff]
      simpa [mapHas] using h1
    have hmemk : key ∈ c.keys := (h.mem_iff key).mpr hmemf
    rw [if_pos h1]
    constructor
    · exact h.one_le_max
    · exact nodup_cons_filter_ne c.keys key h.nodup_keys
    · simp only
      rw [mapSet_map_fst_of_mem _ _ _ hmemf]
      exact h.nodup_cache
    · intro k
      simp only
      rw [mapSet_map_fst_of_mem _ _ _ hmemf, List.mem_cons, mem_filter_ne]
      constructor
      · rintro (rfl | ⟨hk, -⟩)
        · exact hmemf
        · exact (h.mem_iff k).mp hk
      · intro hk
        by_cases hkk : k = key
        · exact Or.inl hkk
        · exact Or.inr ⟨(h.mem_iff k).mpr hk, hkk⟩
    · simp only [List.length_cons]
      rw [mapSet_length_of_mem _ _ _ hmemf,
        filter_ne_length_of_nodup c.keys key h.nodup_keys hmemk]
      exact h.len_eq
    · rw [mapSet_length_of_mem _ _ _ hmemf]
      exact h.size_le
    · intro k hk
      rcases List.mem_cons.mp hk with rfl | hk
      · exact LRUCache.mkKey_ne_empty s t x
      · exact h.keys_ne k ((mem_filter_ne _ _ _).mp hk).1
  · have hget : mapGet c.cache key = none := by
      rcases hg : mapGet c.cache key with - | v
      · rfl
      · exact absurd (by simp [mapHas, hg]) h1
    have hmemf : key ∉ c.cache.map Prod.fst := (mapGet_eq_none_iff _ _).mp hget
    have hmemk : key ∉ c.keys := fun hk => hmemf ((h.mem_iff key).mp hk)
    rw [if_neg h1]
    by_cases h2 : c.maxSize ≤ c.cache.length
    · -- at capacity: evict the key popped from the back of the recency list
      rw [if_pos h2]
      have hmax := h.one_le_max
      have hlen : c.cache.length = c.maxSize := le_antisymm h.size_le h2
      have hkeyslen : c.keys.length = c.maxSize := by rw [← h.len_eq, hlen]
      have hkeys_ne_nil : c.keys ≠ [] := by
        intro hnil
        rw [hnil] at hkeyslen
        simp at hkeyslen
        omega
      obtain ⟨last, hlast⟩ : ∃ a, c.keys.getLast? = some a := by
        cases hl : c.keys.getLast? with
        | none => exact absurd (List.getLast?_eq_none_iff.mp hl) hkeys_ne_nil
        | some a => exact ⟨a, rfl⟩
      have hlast_mem : last ∈ c.keys := mem_of_getLast?_eq_some _ _ hlast
      have hlast_ne : last ≠ "" := h.keys_ne last hlast_mem
      have hlast_f : last ∈ c.cache.map Prod.fst := (h.mem_iff last).mp hlast_mem
      have hkeylast : key ≠ last := fun hh => hmemk (hh ▸ hlast_mem)
      have hev : evictOldest c.cache c.keys.getLast? = mapDel c.cache last := by
        rw [hlast]
        simp [evictOldest, hlast_ne]
      rw [hev]
      have hdelf : (mapDel c.cache last).map Prod.fst
          = (c.cache.map Prod.fst).filter (fun k => k ≠ last) :=
        mapDel_map_fst _ _ h.nodup_cache
      have hkey_not_del : key ∉ (mapDel c.cache last).map Prod.fst := by
        rw [hdelf, mem_filter_ne]
        intro hk
        exact hmemf hk.1
      constructor
      · exact h.one_le_max
      · rw [List.nodup_cons]
        refine ⟨?_, List.Nodup.sublist (List.dropLast_sublist _) h.nodup_keys⟩
        intro hk
        exact hmemk (List.dropLast_sublist _ |>.mem hk)
      · simp only
        rw [mapSet_map_fst_of_not_mem _ _ _ hkey_not_del, hdelf]
        refine List.Nodup.append (h.nodup_cache.filter _) (by simp) ?_
        intro a ha hb
        simp at hb
        subst hb
        exact hkey_not_del (hdelf ▸ ha)
      · intro k
        simp only
        rw [mapSet_map_fst_of_not_mem _ _ _ hkey_not_del, hdelf, List.mem_cons,
          List.mem_append, mem_filter_ne,
          mem_dropLast_iff_of_nodup c.keys last k h.nodup_keys hlast]
        constructor
        · rintro (rfl | ⟨hk, hkl⟩)
          · simp
          · exact Or.inl ⟨(h.mem_iff k).mp hk, hkl⟩
        · rintro (⟨hk, hkl⟩ | hk)
          · exact Or.inr ⟨(h.mem_iff k).mpr hk, hkl⟩
          · simp at hk
            exact Or.inl hk
      · simp only [List.length_cons]
        rw [mapSet_length_of_not_mem _ _ _ hkey_not_del]
        have hd : (mapDel c.cache last).length + 1 = c.cache.length :=
          mapDel_length_of_mem _ _ hlast_f
        have hk : c.keys.dropLast.length + 1 = c.keys.length :=
          dropLast_length_of_getLast? _ _ hlast
        omega
      · dsimp only
        rw [mapSet_length_of_not_mem _ _ _ hkey_not_del]
        have hd : (mapDel c.cache last).length + 1 = c.cache.length :=
          mapDel_length_of_mem _ _ hlast_f
        omega
      · intro k hk
        rcases List.mem_cons.mp hk with rfl | hk
        · exact LRUCache.mkKey_ne_empty s t x
        · exact h.keys_ne k (List.dropLast_sublist _ |>.mem hk)
    · -- below capacity: plain insert
      rw [if_neg h2]
      constructor
      · exact h.one_le_max
      · rw [List.nodup_cons]
        exact ⟨hmemk, h.nodup_keys⟩
      · simp only
        rw [mapSet_map_fst_of_not_mem _ _ _ hmemf]
        refine List.Nodup.append h.nodup_cache (by simp) ?_
        intro a ha hb
        simp at hb
        subst hb
        exact hmemf ha
      · intro k
        simp only
        rw [mapSet_map_fst_of_not_mem _ _ _ hmemf, List.mem_cons, List.mem_append]
        constructor
        · rintro (rfl | hk)
          · simp
          · exact Or.inl ((h.mem_iff k).mp hk)
        · rintro (hk | hk)
          · exact Or.inr ((h.mem_iff k).mpr hk)
          · simp at hk
            exact Or.inl hk
      · simp only [List.length_cons]
        rw [mapSet_length_of_not_mem _ _ _ hmemf, h.len_eq]
      · dsimp only
        rw [mapSet_length_of_not_mem _ _ _ hmemf]
        omega
      · intro k hk
        rcases List.mem_cons.mp hk with rfl | hk
        · exact LRUCache.mkKey_ne_empty s t x
        · exact h.keys_ne k hk

theorem LRUCache.WF_clear (c : LRUCache) (h : c.WF) : c.clear.WF := by
  constructor <;> simp [LRUCache.clear]
  exact h.one_le_max

theorem LRUCache.WF_runOp (c : LRUCache) (op : CacheOp) (h : c.WF) :
    (c.runOp op).WF := by
  cases op with
  | get s t x => exact LRUCache.WF_get c s t x h
  | set s t x v => exact LRUCache.WF_set c s t x v h
  | clear => exact LRUCache.WF_clear c h

theorem LRUCache.WF_runOps (c : LRUCache) (ops : List CacheOp) (h : c.WF) :
    (c.runOps ops).WF := by
  induction ops generalizing c with
  | nil => exact h
  | cons op rest ih =>
    rw [LRUCache.runOps, List.foldl_cons, ← LRUCache.runOps]
    exact ih _ (LRUCache.WF_runOp c op h)

/-! ### Non-empty values are preserved, and the recency list refines the
spec's access order -/

theorem LRUCache.ValsNe_get (c : LRUCache) (s t x : String) (h : c.ValsNe) :
    ((c.get s t x).2).ValsNe := by
  intro p hp
  rw [LRUCache.get_cache_eq] at hp
  exact h p hp

theorem LRUCache.ValsNe_set (c : LRUCache) (s t x v : String) (h : c.ValsNe)
    (hv : v ≠ "") : (c.set s t x v).ValsNe := by
  rw [LRUCache.set]
  by_cases h1 : mapHas c.cache (LRUCache.mkKey s t x)
  · rw [if_pos h1]
    exact mapSet_vals_ne _ _ _ h hv
  · rw [if_neg h1]
    by_cases h2 : c.maxSize ≤ c.cache.length
    · rw [if_pos h2]
      cases hl : c.keys.getLast? with
      | none =>
        exact mapSet_vals_ne _ _ _ h hv
      | some oldestKey =>
        by_cases ho : oldestKey = ""
        · have hev : evictOldest c.cache (some oldestKey) = c.cache := by
            simp [evictOldest, ho]
          rw [hev]
          exact mapSet_vals_ne _ _ _ h hv
        · have hev : evictOldest c.cache (some oldestKey) = mapDel c.cache oldestKey := by
            simp [evictOldest, ho]
          rw [hev]
          exact mapSet_vals_ne _ _ _ (mapDel_vals_ne _ _ h) hv
    · rw [if_neg h2]
      exact mapSet_vals_ne _ _ _ h hv

theorem LRUCache.ValsNe_runOp (c : LRUCache) (op : CacheOp) (h : c.ValsNe)
    (hop : op.valOk) : (c.runOp op).ValsNe := by
  cases op with
  | get s t x => exact LRUCache.ValsNe_get c s t x h
  | set s t x v => exact LRUCache.ValsNe_set c s t x v h hop
  | clear => intro p hp; simp [LRUCache.runOp, LRUCache.clear] at hp

/-- Core simulation step: on a well-formed cache holding only non-empty
values, one implementation operation moves the recency list exactly as the
spec's access order does. -/
theorem LRUCache.keys_runOp_spec (c : LRUCache) (op : CacheOp) (h : c.WF)
    (hv : c.ValsNe) (hop : op.valOk) :
    (c.runOp op).keys = specTouch c.maxSize c.keys op := by
  cases op with
  | get s t x =>
    rw [LRUCache.runOp, LRUCache.get, specTouch]
    set key := LRUCache.mkKey s t x with hkey
    cases hm : mapGet c.cache key with
    | none =>
      have hnk : key ∉ c.keys := by
        intro hk
        exact (mapGet_eq_none_iff _ _).mp hm ((h.mem_iff key).mp hk)
      simp [hnk]
    | some v =>
      have hvne : v ≠ "" := hv _ (mem_of_mapGet_eq_some hm)
      have hmem : key ∈ c.keys :=
        (h.mem_iff key).mpr ((mapGet_isSome_iff _ _).mp (by rw [hm]; rfl))
      simp [hvne, hmem]
  | set s t x v =>
    rw [LRUCache.runOp, LRUCache.set, specTouch]
    set key := LRUCache.mkKey s t x with hkey
    by_cases h1 : mapHas c.cache key
    · have hmem : key ∈ c.keys :=
        (h.mem_iff key).mpr ((mapGet_isSome_iff _ _).mp (by simpa [mapHas] using h1))
      simp [h1, hmem]
    · have hget : mapGet c.cache key = none := by
        rcases hg : mapGet c.cache key with - | w
        · rfl
        · exact absurd (by simp [mapHas, hg]) h1
      have hnmem : key ∉ c.keys := by
        intro hk
        rw [mapGet_eq_none_iff] at hget
        exact hget ((h.mem_iff key).mp hk)
      rw [if_neg h1, if_neg hnmem]
      by_cases h2 : c.maxSize ≤ c.cache.length
      · rw [if_pos h2, if_pos (by rw [← h.len_eq]; exact h2)]
      · rw [if_neg h2, if_neg (by rw [← h.len_eq]; exact h2)]
  | clear => rfl

theorem LRUCache.ValsNe_runOps (c : LRUCache) (ops : List CacheOp) (h : c.ValsNe)
    (hops : ∀ op ∈ ops, op.valOk) : (c.runOps ops).ValsNe := by
  induction ops generalizing c with
  | nil => exact h
  | cons op rest ih =>
    rw [LRUCache.runOps, List.foldl_cons, ← LRUCache.runOps]
    exact ih _ (LRUCache.ValsNe_runOp c op h (hops op (by simp)))
      (fun o ho => hops o (by simp [ho]))

theorem LRUCache.keys_runOps_spec_aux (ops : List CacheOp) (c : LRUCache)
    (h : c.WF) (hv : c.ValsNe) (hm : c.maxSize = 1000)
    (hops : ∀ op ∈ ops, op.valOk) :
    (c.runOps ops).keys = ops.foldl (specTouch 1000) c.keys := by
  induction ops generalizing c with
  | nil => rfl
  | cons op rest ih =>
    rw [LRUCache.runOps, List.foldl_cons, ← LRUCache.runOps, List.foldl_cons]
    have hstep := LRUCache.keys_runOp_spec c op h hv (hops op (by simp))
    rw [hm] at hstep
    rw [ih (c.runOp op) (LRUCache.WF_runOp c op h)
      (LRUCache.ValsNe_runOp c op hv (hops op (by simp)))
      (by rw [LRUCache.runOp_maxSize_eq, hm])
      (fun o ho => hops o (by simp [ho])), hstep]

/-- The implementation's recency list equals the spec's access order. -/
theorem LRUCache.keys_runOps_spec (ops : List CacheOp)
    (hops : ∀ op ∈ ops, op.valOk) :
    (LRUCache.runOps .init ops).keys = specRecency 1000 ops :=
  LRUCache.keys_runOps_spec_aux ops .init LRUCache.WF_init
    (fun p hp => by simp [LRUCache.init] at hp) rfl hops

/-- C3 (amended): for every sequence of get/set/clear operations in which
every stored value is a non-empty string, the default cache never exceeds
1000 entries, its recency list coincides with the spec's
least-recently-accessed order, and a set of a fresh key at capacity evicts
exactly the least-recently-accessed key, which a subsequent get then misses. -/
theorem lru_cache_true_lru (ops : List CacheOp) (hops : ∀ op ∈ ops, op.valOk) :
    (LRUCache.runOps .init ops).size ≤ 1000 ∧
    (LRUCache.runOps .init ops).keys = specRecency 1000 ops ∧
    (∀ s t x v last,
      mapGet (LRUCache.runOps .init ops).cache (LRUCache.mkKey s t x) = none →
      (LRUCache.runOps .init ops).size = 1000 →
      (specRecency 1000 ops).getLast? = some last →
      ∀ s₀ t₀ x₀, LRUCache.mkKey s₀ t₀ x₀ = last →
        (((LRUCache.runOps .init ops).set s t x v).get s₀ t₀ x₀).1 = none) := by
  set c := LRUCache.runOps .init ops with hc
  have hwf : c.WF := LRUCache.WF_runOps _ _ LRUCache.WF_init
  have hmax : c.maxSize = 1000 := LRUCache.runOps_maxSize_eq _ _
  have hkeys : c.keys = specRecency 1000 ops := LRUCache.keys_runOps_spec ops hops
  refine ⟨?_, hkeys, ?_⟩
  · have := hwf.size_le
    rw [hmax] at this
    exact this
  · intro s t x v last hget hsz hlast s₀ t₀ x₀ hks
    have hglast : c.keys.getLast? = some last := by rw [hkeys]; exact hlast
    have hlast_mem : last ∈ c.keys := mem_of_getLast?_eq_some _ _ hglast
    have hlast_ne : last ≠ "" := hwf.keys_ne last hlast_mem
    have hlast_f : last ∈ c.cache.map Prod.fst := (hwf.mem_iff last).mp hlast_mem
    have hfresh : LRUCache.mkKey s t x ∉ c.cache.map Prod.fst :=
      (mapGet_eq_none_iff _ _).mp hget
    have hkeylast : LRUCache.mkKey s t x ≠ last := by
      intro hh
      exact hfresh (hh ▸ hlast_f)
    have hsetform : c.set s t x v =
        { c with
            cache := mapSet (LRUCache.evictOldest c.cache c.keys.getLast?)
              (LRUCache.mkKey s t x) v,
            keys := LRUCache.mkKey s t x :: c.keys.dropLast } := by
      rw [LRUCache.set, if_neg (by simp [mapHas, hget]),
        if_pos (by rw [hmax, ← hsz]; rfl)]
    have hev : LRUCache.evictOldest c.cache c.keys.getLast? = mapDel c.cache last := by
      rw [hglast]
      simp [LRUCache.evictOldest, hlast_ne]
    have hfinal : mapGet (c.set s t x v).cache last = none := by
      rw [hsetform]
      simp only
      rw [hev, mapGet_mapSet_ne _ _ _ _ hkeylast,
        mapGet_mapDel_of_nodup _ _ _ hwf.nodup_cache, if_pos rfl]
    rw [LRUCache.get, hks, hfinal]

/-! ### C3 counterexample construction: a stored empty string breaks the
least-recently-accessed eviction policy -/

/-- The i-th distinct text: a run of i copies of 'a'. -/
def c3Text (i : Nat) : String := String.mk (List.replicate i 'a')

/-- The composite cache key of the i-th text. -/
def c3Key (i : Nat) : String := LRUCache.mkKey "ja" "zh" (c3Text i)

/-- Values stored during the fill: the empty string for entry 0, "x" otherwise. -/
def c3Val (i : Nat) : String := if i = 0 then "" else "x"

/-- The first n fill operations. -/
def c3FillOps (n : Nat) : List CacheOp :=
  (List.range n).map (fun i => CacheOp.set "ja" "zh" (c3Text i) (c3Val i))

/-- Fill the cache to capacity, access entry 0 by get, then insert a fresh key. -/
def c3Ops : List CacheOp :=
  c3FillOps 1000 ++
    [CacheOp.get "ja" "zh" (c3Text 0), CacheOp.set "ja" "zh" (c3Text 1000) "x"]

/-- The stored map after the first n fill operations. -/
def c3FillCache (n : Nat) : List (String × String) :=
  (List.range n).map (fun i => (c3Key i, c3Val i))

/-- The recency list after the first n fill operations. -/
def c3FillKeys (n : Nat) : List String :=
  ((List.range n).map c3Key).reverse

theorem c3Text_length (i : Nat) : (c3Text i).length = i := by
  show (List.replicate i 'a').length = i
  simp

theorem c3Key_length (i : Nat) : (c3Key i).length = 6 + i := by
  rw [c3Key, LRUCache.mkKey, String.length_append, String.length_append,
    String.length_append, String.length_append, c3Text_length]
  have h1 : ("ja" : String).length = 2 := rfl
  have h2 : ("_" : String).length = 1 := rfl
  have h3 : ("zh" : String).length = 2 := rfl
  omega

theorem c3Key_inj {i j : Nat} (h : c3Key i = c3Key j) : i = j := by
  have := congrArg String.length h
  rw [c3Key_length, c3Key_length] at this
  omega

theorem mapSet_append_of_not_mem (m : List (String × String)) (k v : String)
    (h : k ∉ m.map Prod.fst) : mapSet m k v = m ++ [(k, v)] := by
  induction m with
  | nil => rfl
  | cons p rest ih =>
    obtain ⟨k', v'⟩ := p
    rw [mem_map_fst_cons] at h
    push_neg at h
    simp [mapSet, Ne.symm h.1, ih h.2]

theorem c3FillCache_get_high (n j : Nat) (h : n ≤ j) :
    mapGet (c3FillCache n) (c3Key j) = none := by
  apply mapGet_eq_none_of_forall
  intro p hp
  rw [c3FillCache] at hp
  obtain ⟨i, hi, rfl⟩ := List.mem_map.mp hp
  intro hk
  have hij := c3Key_inj hk
  rw [List.mem_range] at hi
  omega

theorem c3FillCache_length (n : Nat) : (c3FillCache n).length = n := by
  simp [c3FillCache]

theorem c3FillKeys_length (n : Nat) : (c3FillKeys n).length = n := by
  simp [c3FillKeys]

theorem c3Key_not_mem_fillKeys (n j : Nat) (h : n ≤ j) :
    c3Key j ∉ c3FillKeys n := by
  intro hmem
  rw [c3FillKeys, List.mem_reverse] at hmem
  obtain ⟨i, hi, hk⟩ := List.mem_map.mp hmem
  have hij := c3Key_inj hk
  rw [List.mem_range] at hi
  omega

theorem c3_fill_state (n : Nat) (h : n ≤ 1000) :
    LRUCache.runOps .init (c3FillOps n) = ⟨c3FillCache n, 1000, c3FillKeys n⟩ := by
  induction n with
  | zero => rfl
  | succ n ih =>
    have hn : n ≤ 1000 := by omega
    rw [c3FillOps, List.range_succ, List.map_append]
    rw [LRUCache.runOps, List.foldl_append]
    have ih' := ih hn
    rw [LRUCache.runOps] at ih'
    rw [← c3FillOps, ih']
    show LRUCache.runOp ⟨c3FillCache n, 1000, c3FillKeys n⟩
      (CacheOp.set "ja" "zh" (c3Text n) (c3Val n)) = _
    rw [LRUCache.runOp, LRUCache.set]
    have hget : mapGet (c3FillCache n) (c3Key n) = none :=
      c3FillCache_get_high n n le_rfl
    have hfst : c3Key n ∉ (c3FillCache n).map Prod.fst :=
      (mapGet_eq_none_iff _ _).mp hget
    rw [if_neg (by show ¬ mapHas (c3FillCache n) (c3Key n) = true; simp [mapHas, hget]),
      if_neg (by show ¬ (1000 ≤ (c3FillCache n).length); rw [c3FillCache_length]; omega)]
    have hcache : mapSet (c3FillCache n) (c3Key n) (c3Val n) = c3FillCache (n + 1) := by
      rw [mapSet_append_of_not_mem _ _ _ hfst, c3FillCache, c3FillCache,
        List.range_succ, List.map_append]
      rfl
    have hkeys : c3Key n :: c3FillKeys n = c3FillKeys (n + 1) := by
      rw [c3FillKeys, c3FillKeys, List.range_succ, List.map_append,
        List.reverse_append]
      rfl
    rw [show LRUCache.mkKey "ja" "zh" (c3Text n) = c3Key n from rfl, hcache, hkeys]

theorem c3_spec_fill (n : Nat) (h : n ≤ 1000) :
    List.foldl (specTouch 1000) [] (c3FillOps n) = c3FillKeys n := by
  induction n with
  | zero => rfl
  | succ n ih =>
    have hn : n ≤ 1000 := by omega
    rw [c3FillOps, List.range_succ, List.map_append, List.foldl_append,
      ← c3FillOps, ih hn]
    show specTouch 1000 (c3FillKeys n) (CacheOp.set "ja" "zh" (c3Text n) (c3Val n)) = _
    rw [specTouch]
    rw [if_neg (by
      show ¬ LRUCache.mkKey "ja" "zh" (c3Text n) ∈ c3FillKeys n
      exact c3Key_not_mem_fillKeys n n le_rfl)]
    rw [if_neg (by rw [c3FillKeys_length]; omega)]
    have hkeys : c3Key n :: c3FillKeys n = c3FillKeys (n + 1) := by
      rw [c3FillKeys, c3FillKeys, List.range_succ, List.map_append,
        List.reverse_append]
      rfl
    exact hkeys

/-- The map after filling 1000 entries, with the head entry split off. -/
theorem c3FillCache_cons :
    c3FillCache 1000
      = (c3Key 0, "") :: (List.range 999).map (fun i => (c3Key (i + 1), "x")) := by
  rw [c3FillCache, List.range_succ_eq_map, List.map_cons, List.map_map]
  have hv : c3Val 0 = "" := rfl
  rw [hv]
  congr 1

theorem c3FillKeys_getLast? :
    (c3FillKeys 1000).getLast? = some (c3Key 0) := by
  rw [c3FillKeys, List.getLast?_reverse, List.range_succ_eq_map, List.map_cons,
    List.head?_cons]

set_option maxRecDepth 4000

theorem LRUCache.get_eq_of_none (c : LRUCache) (s t x : String)
    (h : mapGet c.cache (LRUCache.mkKey s t x) = none) :
    c.get s t x = (none, c) := by
  rw [LRUCache.get, h]

theorem LRUCache.get_of_empty_val (c : LRUCache) (s t x : String)
    (h : mapGet c.cache (LRUCache.mkKey s t x) = some "") :
    c.get s t x = (some "", c) := by
  rw [LRUCache.get, h]
  rfl

theorem LRUCache.get_fst_eq_of_some (c : LRUCache) (s t x v : String)
    (h : mapGet c.cache (LRUCache.mkKey s t x) = some v) :
    (c.get s t x).1 = some v := by
  rw [LRUCache.get, h]
  by_cases hv : v = "" <;> simp [hv]

theorem LRUCache.set_evict_form (c : LRUCache) (s t x v : String)
    (hget : mapGet c.cache (LRUCache.mkKey s t x) = none)
    (hcap : c.maxSize ≤ c.cache.length) :
    c.set s t x v =
      { c with cache := mapSet (LRUCache.evictOldest c.cache c.keys.getLast?)
                 (LRUCache.mkKey s t x) v,
               keys := LRUCache.mkKey s t x :: c.keys.dropLast } := by
  rw [LRUCache.set, if_neg (by simp [mapHas, hget]), if_pos hcap]

theorem mapGet_append_of_some (l₁ l₂ : List (String × String)) (k v : String)
    (h : mapGet l₁ k = some v) : mapGet (l₁ ++ l₂) k = some v := by
  induction l₁ with
  | nil => simp [mapGet] at h
  | cons p rest ih =>
    obtain ⟨k', v'⟩ := p
    by_cases hk : k' = k
    · subst hk
      simp [mapGet] at h ⊢
      exact h
    · rw [List.cons_append, mapGet_cons_ne _ _ _ _ hk]
      rw [mapGet_cons_ne _ _ _ _ hk] at h
      exact ih h

/-- The tail of the filled cache: entries 1 through 999, all holding "x". -/
def c3Tail : List (String × String) :=
  (List.range 999).map (fun i => (c3Key (i + 1), "x"))

theorem c3Tail_get_none (j : Nat) (hj : j = 0 ∨ 1000 ≤ j) :
    mapGet c3Tail (c3Key j) = none := by
  apply mapGet_eq_none_of_forall
  intro p hp
  rw [c3Tail] at hp
  obtain ⟨i, hi, rfl⟩ := List.mem_map.mp hp
  intro hk
  have hij := c3Key_inj hk
  rw [List.mem_range] at hi
  omega

theorem c3_impl_final : LRUCache.runOps .init c3Ops
    = ⟨c3Tail ++ [(c3Key 1000, "x")], 1000,
        c3Key 1000 :: (c3FillKeys 1000).dropLast⟩ := by
  have hf := c3_fill_state 1000 le_rfl
  rw [LRUCache.runOps] at hf
  have hrun : LRUCache.runOps .init c3Ops
      = LRUCache.runOp (LRUCache.runOp ⟨c3FillCache 1000, 1000, c3FillKeys 1000⟩
          (CacheOp.get "ja" "zh" (c3Text 0))) (CacheOp.set "ja" "zh" (c3Text 1000) "x") := by
    rw [c3Ops, LRUCache.runOps, List.foldl_append, hf,
      List.foldl_cons, List.foldl_cons, List.foldl_nil]
  have hget0 : mapGet (c3FillCache 1000) (c3Key 0) = some "" := by
    rw [c3FillCache_cons]
    exact mapGet_cons_self _ _ _
  have hgetstep : LRUCache.runOp ⟨c3FillCache 1000, 1000, c3FillKeys 1000⟩
      (CacheOp.get "ja" "zh" (c3Text 0)) = ⟨c3FillCache 1000, 1000, c3FillKeys 1000⟩ := by
    rw [LRUCache.runOp, LRUCache.get_of_empty_val ⟨c3FillCache 1000, 1000, c3FillKeys 1000⟩
      "ja" "zh" (c3Text 0) hget0]
  have hdel : mapDel (c3FillCache 1000) (c3Key 0) = c3Tail := by
    rw [c3FillCache_cons, c3Tail]
    simp [mapDel]
  have hfresh : c3Key 1000 ∉ c3Tail.map Prod.fst :=
    (mapGet_eq_none_iff _ _).mp (c3Tail_get_none 1000 (Or.inr le_rfl))
  have hsetT : mapSet c3Tail (c3Key 1000) "x" = c3Tail ++ [(c3Key 1000, "x")] :=
    mapSet_append_of_not_mem _ _ _ hfresh
  have h0ne : c3Key 0 ≠ "" := LRUCache.mkKey_ne_empty "ja" "zh" (c3Text 0)
  rw [hrun, hgetstep, LRUCache.runOp,
    LRUCache.set_evict_form ⟨c3FillCache 1000, 1000, c3FillKeys 1000⟩
      "ja" "zh" (c3Text 1000) "x" (c3FillCache_get_high 1000 1000 le_rfl)
      (by rw [show (⟨c3FillCache 1000, 1000, c3FillKeys 1000⟩ : LRUCache).cache
            = c3FillCache 1000 from rfl, c3FillCache_length])]
  dsimp only
  rw [c3FillKeys_getLast?]
  have hev : LRUCache.evictOldest (c3FillCache 1000) (some (c3Key 0))
      = mapDel (c3FillCache 1000) (c3Key 0) := by
    simp [LRUCache.evictOldest, h0ne]
  rw [hev, hdel, show LRUCache.mkKey "ja" "zh" (c3Text 1000) = c3Key 1000 from rfl,
    hsetT]

theorem getLast?_cons_of_ne_nil (a : String) (l : List String) (h : l ≠ []) :
    (a :: l).getLast? = l.getLast? := by
  cases l with
  | nil => exact absurd rfl h
  | cons b m => exact List.getLast?_cons_cons

theorem specTouch_get_mem (M : Nat) (r : List String) (s t x : String)
    (h : LRUCache.mkKey s t x ∈ r) :
    specTouch M r (CacheOp.get s t x)
      = LRUCache.mkKey s t x :: r.filter (fun k => k ≠ LRUCache.mkKey s t x) := by
  rw [specTouch, if_pos h]

theorem c3_spec_after_get :
    specRecency 1000 (c3FillOps 1000 ++ [CacheOp.get "ja" "zh" (c3Text 0)])
      = c3Key 0 :: ((List.range 999).map (fun i => c3Key (i + 1))).reverse := by
  rw [specRecency]
  rw [List.foldl_append]
  rw [c3_spec_fill 1000 le_rfl]
  rw [List.foldl_cons]
  rw [List.foldl_nil]
  have hmem : LRUCache.mkKey "ja" "zh" (c3Text 0) ∈ c3FillKeys 1000 := by
    show c3Key 0 ∈ c3FillKeys 1000
    rw [c3FillKeys, List.mem_reverse]
    exact List.mem_map_of_mem _ (by simp)
  rw [specTouch_get_mem 1000 (c3FillKeys 1000) "ja" "zh" (c3Text 0) hmem,
    show LRUCache.mkKey "ja" "zh" (c3Text 0) = c3Key 0 from rfl]
  refine congrArg (fun l => c3Key 0 :: l) ?_
  rw [c3FillKeys, List.filter_reverse]
  refine congrArg List.reverse ?_
  rw [List.range_succ_eq_map, List.map_cons,
    List.filter_cons_of_neg (by simp), List.map_map]
  rw [List.filter_eq_self.mpr]
  · exact List.map_congr_left (fun i hi => rfl)
  · intro a ha
    obtain ⟨i, hi, rfl⟩ := List.mem_map.mp ha
    simp only [ne_eq, decide_eq_true_eq]
    intro hk
    have := c3Key_inj hk
    omega

/-- C3 counterexample: fill the cache with 1000 entries where entry 0 stores
the empty string, then get entry 0 (the most recent access), then insert a
fresh key at capacity.  The claim's least-recently-accessed victim at that
moment is entry 1, yet the implementation evicts entry 0, the entry accessed
most recently (a stored empty string is falsy, so its get does not promote
it).  Entry 0 is then absent from a subsequent get while entry 1 survives. -/
theorem lru_c3_counterexample :
    (specRecency 1000 (c3FillOps 1000 ++ [CacheOp.get "ja" "zh" (c3Text 0)])).getLast?
        = some (c3Key 1) ∧
    c3Key 1 ≠ c3Key 0 ∧
    ((LRUCache.runOps .init c3Ops).get "ja" "zh" (c3Text 0)).1 = none ∧
    ((LRUCache.runOps .init c3Ops).get "ja" "zh" (c3Text 1)).1 = some "x" := by
  refine ⟨?_, ?_, ?_, ?_⟩
  · rw [c3_spec_after_get]
    have hne : ((List.range 999).map (fun i => c3Key (i + 1))).reverse ≠ [] := by
      simp [List.range_eq_nil]
    rw [getLast?_cons_of_ne_nil _ _ hne, List.getLast?_reverse,
      List.range_succ_eq_map, List.map_cons, List.head?_cons]
  · intro h
    have := c3Key_inj h
    omega
  · rw [c3_impl_final]
    have hnone : mapGet (c3Tail ++ [(c3Key 1000, "x")]) (c3Key 0) = none := by
      apply mapGet_eq_none_of_forall
      intro p hp
      rcases List.mem_append.mp hp with hp | hp
      · rw [c3Tail] at hp
        obtain ⟨i, hi, rfl⟩ := List.mem_map.mp hp
        intro hk
        have := c3Key_inj hk
        omega
      · simp at hp
        subst hp
        intro hk
        have := c3Key_inj hk
        omega
    rw [LRUCache.get_eq_of_none _ "ja" "zh" (c3Text 0) hnone]
  · rw [c3_impl_final]
    have hsome : mapGet (c3Tail ++ [(c3Key 1000, "x")]) (c3Key 1) = some "x" := by
      apply mapGet_append_of_some
      rw [c3Tail, List.range_succ_eq_map, List.map_cons]
      exact mapGet_cons_self _ _ _
    exact LRUCache.get_fst_eq_of_some _ "ja" "zh" (c3Text 1) "x" hsome

/-- Witness for the amended C3 theorem at a concrete operation sequence. -/
theorem lru_cache_true_lru_witness :
    (LRUCache.runOps .init [CacheOp.set "ja" "zh" "a" "x"]).size ≤ 1000 :=
  (lru_cache_true_lru [CacheOp.set "ja" "zh" "a" "x"] (by decide)).1

/-! ## `TranslationService` — sequential interpretation

The service's asynchronous `translate` is interpreted atomically: the
enqueue, the worker's retry loop, the result-cache write and the
promise-cache removal happen within one call, with ghost counters for queue
pushes, remote fetches and result-cache hits.  Promise sharing between
overlapping calls is modelled separately by the small-step machine further
below; here a call that finds its key in the promise cache returns the
marker outcome `attached` (unreachable in sequential runs, where the
promise cache is empty between calls).  Timers (backoff delays, the
inter-batch delay) are not modelled; they only affect timing. -/

/-- The error surfaced by `translate`. -/
inductive TErr
  | unsupportedPair
  | remoteFailed
  deriving DecidableEq, Repr

/-- The outcome of one `translate` call. -/
inductive TransOutcome
  | ok (text : String)
  | err (e : TErr)
  | attached
  deriving DecidableEq, Repr

/-- Convert a worker result into a call outcome. -/
def TransOutcome.ofExcept : Except TErr String → TransOutcome
  | .ok v => .ok v
  | .error e => .err e

/-- `text.trim()` over the character list (structural, kernel-evaluable). -/
def trimChars (l : List Char) : List Char :=
  ((l.dropWhile Char.isWhitespace).reverse.dropWhile Char.isWhitespace).reverse

/-- `text.trim()`. -/
def jsTrim (s : String) : String := String.mk (trimChars s.data)

/-- Whether a character matches the `[\r\n]` class. -/
def isNL (c : Char) : Bool := c = '\r' || c = '\n'

/-- `replace(/[\r\n]+/g, ' ')`: each maximal run of CR/LF becomes one space. -/
def collapseNL : List Char → List Char
  | [] => []
  | c :: rest =>
    if isNL c then
      match rest with
      | d :: _ => if isNL d then collapseNL rest else ' ' :: collapseNL rest
      | [] => [' ']
    else c :: collapseNL rest

/-- Structural integer square root (`Math.floor(Math.sqrt n)`). -/
def sqrtAux (n : Nat) : Nat → Nat
  | 0 => 0
  | k + 1 => if (k + 1) * (k + 1) ≤ n then k + 1 else sqrtAux n k

/-- `⌊√n⌋`, kernel-evaluable. -/
def intSqrt (n : Nat) : Nat := sqrtAux n n

/-- The network oracle: for a text and an attempt number, either a failed
fetch (HTTP error, timeout, network error, malformed top-level payload) or
the parsed candidate at `data[0][0][0]` (`none` when the inner result array
is missing or empty). -/
def Fetch : Type := String → Nat → Except Unit (Option String)

namespace TranslationService

/-- The response-parsing tail of `translateWithGoogleAPI`: an absent or
blank candidate falls back to the original text. -/
def parseCandidate (text : String) : Option String → String
  | none => text
  | some tt => if jsTrim tt = "" then text else tt

/-- One call of `translateWithGoogleAPI`: trim, collapse newlines, reject
over-long text before any network call, then one counted fetch whose parsed
response falls back to the original text when empty. -/
def googleAPI (fetch : Fetch) (text : String) (attempt : Nat) :
    Except Unit String × Nat :=
  let processedText := String.mk (collapseNL (jsTrim text).data)
  if 5000 < processedText.length then
    (.error (), 0)
  else
    match fetch text attempt with
    | .error _ => (.error (), 1)
    | .ok cand => (.ok (parseCandidate text cand), 1)

/-- The retry loop of `executeTranslationTask`: up to `remaining` tries
(attempt numbers counting up), each a `googleAPI` call; exhaustion surfaces
`remoteFailed` (the detailed error).  Backoff delays are not modelled. -/
def runAttempts (fetch : Fetch) (text : String) :
    Nat → Nat → Except TErr String × Nat
  | _, 0 => (.error .remoteFailed, 0)
  | attempt, remaining + 1 =>
    match googleAPI fetch text attempt with
    | (.ok v, calls) => (.ok v, calls)
    | (.error _, calls) =>
      let next := runAttempts fetch text (attempt + 1) remaining
      (next.1, calls + next.2)

/-- `executeTranslationTask`: `maxAttempts = 3`, so up to 4 tries. -/
def executeTask (fetch : Fetch) (text : String) : Except TErr String × Nat :=
  runAttempts fetch text 0 4

end TranslationService

/-- The mutable state of one `TranslationService` instance, with ghost
counters observing its externally visible activity. -/
structure SvcState where
  resultCache : LRUCache
  promiseKeys : List String
  remoteCalls : Nat
  queuePushes : Nat
  cacheHits : Nat
  deriving DecidableEq, Repr

/-- `new TranslationService()`. -/
def SvcState.init : SvcState := ⟨LRUCache.init, [], 0, 0, 0⟩

namespace TranslationService

/-- The promise-cache consultation and fresh-request path of `translate`
(the code after the result-cache check came back falsy). -/
def translateMiss (st : SvcState) (fetch : Fetch)
    (sourceLanguage targetLanguage text : String) : TransOutcome × SvcState :=
  let cacheKey := sourceLanguage ++ "_" ++ targetLanguage ++ "_" ++ text
  if st.promiseKeys.contains cacheKey then
    (.attached, st)
  else
    let st1 := { st with queuePushes := st.queuePushes + 1,
                         promiseKeys := cacheKey :: st.promiseKeys }
    let run := executeTask fetch text
    let st2 := { st1 with remoteCalls := st1.remoteCalls + run.2 }
    match run.1 with
    | .ok translatedText =>
      (.ok translatedText,
        { st2 with
            resultCache := st2.resultCache.set sourceLanguage targetLanguage
              text translatedText,
            promiseKeys := st2.promiseKeys.erase cacheKey })
    | .error e => (.err e, { st2 with promiseKeys := st2.promiseKeys.erase cacheKey })

/-- `TranslationService.translate`, sequential interpretation. -/
def translate (st : SvcState) (fetch : Fetch)
    (sourceLanguage targetLanguage text : String) : TransOutcome × SvcState :=
  if sourceLanguage ≠ "ja" ∨ targetLanguage ≠ "zh" then
    (.err .unsupportedPair, st)
  else if jsTrim text = "" then
    (.ok text, st)
  else
    let got := st.resultCache.get sourceLanguage targetLanguage text
    let st1 := { st with resultCache := got.2 }
    match got.1 with
    | some cachedResult =>
      if cachedResult = "" then
        translateMiss st1 fetch sourceLanguage targetLanguage text
      else
        (.ok cachedResult, { st1 with cacheHits := st1.cacheHits + 1 })
    | none => translateMiss st1 fetch sourceLanguage targetLanguage text

/-- The cache-check pass of `translateBatch`: pre-fill output slots from the
result cache, collect the not-yet-cached texts as tasks with their original
indices. -/
def collectTasks (sourceLanguage targetLanguage : String) :
    SvcState → Nat → List String →
      SvcState × List (Option String) × List (Nat × String)
  | st, _, [] => (st, [], [])
  | st, i, text :: rest =>
    let got := st.resultCache.get sourceLanguage targetLanguage text
    let st1 := { st with resultCache := got.2 }
    match got.1 with
    | some cachedResult =>
      if cachedResult = "" then
        let r := collectTasks sourceLanguage targetLanguage st1 (i + 1) rest
        (r.1, none :: r.2.1, (i, text) :: r.2.2)
      else
        let r := collectTasks sourceLanguage targetLanguage st1 (i + 1) rest
        (r.1, some cachedResult :: r.2.1, r.2.2)
    | none =>
      let r := collectTasks sourceLanguage targetLanguage st1 (i + 1) rest
      (r.1, none :: r.2.1, (i, text) :: r.2.2)

/-- The dynamic sub-batch size of `translateBatch`:
`max(10, min(50, ⌊√(texts.length)·5⌋, ⌊10000 / max(1, totalChars/tasks.length || 1)⌋))`.
`⌊√n·5⌋ = ⌊√(25n)⌋`, and the floored division by the average length equals
`⌊10000·tasks.length/totalChars⌋` when the average exceeds 1 (and 10000
otherwise, also covering the `NaN || 1` case of an empty task list). -/
def dynamicBatchSize (textsLen : Nat) (tasks : List (Nat × String)) : Nat :=
  let totalChars := (tasks.map (fun task => task.2.length)).sum
  let lenFactor :=
    if totalChars ≤ tasks.length then 10000
    else 10000 * tasks.length / totalChars
  max 10 (min 50 (min (intSqrt (25 * textsLen)) lenFactor))

/-- Run the translations of one sub-batch sequentially, pairing each task
index with its translated text; a rejection rejects the whole batch
(`Promise.all`). -/
def runBatchSeq (fetch : Fetch) (sourceLanguage targetLanguage : String) :
    SvcState → List (Nat × String) → SvcState × Except TErr (List (Nat × String))
  | st, [] => (st, .ok [])
  | st, task :: rest =>
    match translate st fetch sourceLanguage targetLanguage task.2 with
    | (.ok v, st1) =>
      match runBatchSeq fetch sourceLanguage targetLanguage st1 rest with
      | (st2, .ok acc) => (st2, .ok ((task.1, v) :: acc))
      | (st2, .error e) => (st2, .error e)
    | (.err e, st1) => (st1, .error e)
    | (.attached, st1) => (st1, .error .remoteFailed)

/-- Write each translated pair into the output slot of its original index. -/
def writeResults : List (Option String) → List (Nat × String) → List (Option String)
  | results, [] => results
  | results, pair :: rest => writeResults (results.set pair.1 (some pair.2)) rest

/-- The sub-batch loop of `translateBatch`: take `dynamicBatchSize` tasks,
shrink to `effectiveBatchSize` when the batch exceeds the 10000-character
budget, translate only the shrunk prefix — and then advance by the full
`dynamicBatchSize` stride, exactly as the source loop does.  The loop is
driven by fuel so that it is structurally recursive (and kernel-evaluable);
`translateBatch` passes `tasks.length` fuel, which suffices because the
stride `dynamicBatchSize` is always at least 10. -/
def batchLoop (fetch : Fetch) (sourceLanguage targetLanguage : String) (dyn : Nat) :
    Nat → SvcState → List (Nat × String) → List (Option String) →
      SvcState × Except TErr (List (Option String))
  | _, st, [], results => (st, .ok results)
  | 0, st, _, results => (st, .ok results)
  | fuel + 1, st, task :: rest, results =>
    let batch := (task :: rest).take dyn
    let batchCharCount := (batch.map (fun tk => tk.2.length)).sum
    let effectiveBatchSize :=
      if 10000 < batchCharCount then max 1 (dyn * 10000 / batchCharCount)
      else dyn
    let actualBatch := batch.take effectiveBatchSize
    match runBatchSeq fetch sourceLanguage targetLanguage st actualBatch with
    | (st1, .ok pairs) =>
      batchLoop fetch sourceLanguage targetLanguage dyn fuel st1
        ((task :: rest).drop dyn) (writeResults results pairs)
    | (st1, .error e) => (st1, .error e)

/-- `TranslationService.translateBatch`, sequential interpretation. -/
def translateBatch (st : SvcState) (fetch : Fetch) (texts : List String)
    (sourceLanguage targetLanguage : String) :
    Except TErr (List (Option String)) × SvcState :=
  if sourceLanguage ≠ "ja" ∨ targetLanguage ≠ "zh" then
    (.error .unsupportedPair, st)
  else
    let collected := collectTasks sourceLanguage targetLanguage st 0 texts
    let dyn := dynamicBatchSize texts.length collected.2.2
    let run := batchLoop fetch sourceLanguage targetLanguage dyn
      collected.2.2.length collected.1 collected.2.2 collected.2.1
    (run.2, run.1)

end TranslationService

instance {e a : Type} [DecidableEq e] [DecidableEq a] : DecidableEq (Except e a) :=
  fun x y =>
    match x, y with
    | .ok u, .ok v =>
      if h : u = v then isTrue (by rw [h]) else isFalse (by simp [h])
    | .error u, .error v =>
      if h : u = v then isTrue (by rw [h]) else isFalse (by simp [h])
    | .ok _, .error _ => isFalse (by simp)
    | .error _, .ok _ => isFalse (by simp)

/-! ### C1: the sub-batch stride bug drops output slots -/

/-- A remote stub: every fetch succeeds with the translation "译". -/
def c1Fetch : Fetch := fun _ _ => .ok (some "译")

/-- Ten distinct texts of 1001 characters each (total 10010 > the
10000-character budget, none cached). -/
def c1Texts : List String :=
  (List.range 10).map (fun j => String.mk (Nat.digitChar j :: List.replicate 1000 'a'))

set_option maxRecDepth 100000

/-- C1: `translateBatch` does not fill every output slot.  With ten uncached
texts of 1001 characters each the sub-batch exceeds the 10000-character
budget, so the loop translates only the 9-element effective prefix of the
sub-batch yet still advances its index by the full stride of 10: the first
nine slots receive translations while the last slot is left unfilled
(`none` here, `undefined` in the source array). -/
theorem translateBatch_drops_uncached_slot :
    (TranslationService.translateBatch SvcState.init c1Fetch c1Texts "ja" "zh").1
      = .ok (List.replicate 9 (some "译") ++ [none]) := by decide

set_option maxRecDepth 512

/-! ### Lemmas about the sequential `translate` -/

theorem jsTrim_empty : jsTrim "" = "" := rfl

theorem ne_empty_of_jsTrim_ne (v : String) (h : jsTrim v ≠ "") : v ≠ "" := by
  intro hv
  rw [hv] at h
  exact h jsTrim_empty

theorem parseCandidate_trim_ne (text : String) (cand : Option String)
    (h : jsTrim text ≠ "") :
    jsTrim (TranslationService.parseCandidate text cand) ≠ "" := by
  cases cand with
  | none => exact h
  | some tt =>
    rw [TranslationService.parseCandidate]
    by_cases htt : jsTrim tt = ""
    · rw [if_pos htt]
      exact h
    · rw [if_neg htt]
      exact htt

theorem googleAPI_ok_trim_ne (fetch : Fetch) (text : String) (attempt : Nat)
    (v : String) (calls : Nat)
    (hrun : TranslationService.googleAPI fetch text attempt = (.ok v, calls))
    (h : jsTrim text ≠ "") : jsTrim v ≠ "" := by
  rw [TranslationService.googleAPI] at hrun
  by_cases hlen : 5000 < (String.mk (collapseNL (jsTrim text).data)).length
  · rw [if_pos hlen] at hrun
    simp at hrun
  · rw [if_neg hlen] at hrun
    cases hf : fetch text attempt with
    | error u =>
      rw [hf] at hrun
      simp at hrun
    | ok cand =>
      rw [hf] at hrun
      simp at hrun
      rw [← hrun.1]
      exact parseCandidate_trim_ne text cand h

theorem runAttempts_ok_trim_ne (fetch : Fetch) (text : String)
    (attempt remaining : Nat) (v : String) (calls : Nat)
    (hrun : TranslationService.runAttempts fetch text attempt remaining
      = (.ok v, calls))
    (h : jsTrim text ≠ "") : jsTrim v ≠ "" := by
  induction remaining generalizing attempt calls with
  | zero =>
    rw [TranslationService.runAttempts] at hrun
    simp at hrun
  | succ remaining ih =>
    rw [TranslationService.runAttempts] at hrun
    cases hg : TranslationService.googleAPI fetch text attempt with
    | mk res extra =>
      cases res with
      | ok w =>
        rw [hg] at hrun
        simp at hrun
        rw [← hrun.1]
        exact googleAPI_ok_trim_ne fetch text attempt w extra hg h
      | error u =>
        rw [hg] at hrun
        simp at hrun
        have heq : TranslationService.runAttempts fetch text (attempt + 1) remaining
            = (.ok v,
              (TranslationService.runAttempts fetch text (attempt + 1) remaining).2) := by
          rw [← hrun.1]
        exact ih (attempt + 1) _ heq

theorem executeTask_ok_trim_ne (fetch : Fetch) (text : String) (v : String)
    (calls : Nat)
    (hrun : TranslationService.executeTask fetch text = (.ok v, calls))
    (h : jsTrim text ≠ "") : jsTrim v ≠ "" :=
  runAttempts_ok_trim_ne fetch text 0 4 v calls hrun h

theorem LRUCache.mapGet_set_self (c : LRUCache) (s t x v : String) :
    mapGet (c.set s t x v).cache (LRUCache.mkKey s t x) = some v := by
  rw [LRUCache.set]
  by_cases h1 : mapHas c.cache (LRUCache.mkKey s t x)
  · rw [if_pos h1]
    exact mapGet_mapSet_self _ _ _
  · rw [if_neg h1]
    by_cases h2 : c.maxSize ≤ c.cache.length
    · rw [if_pos h2]
      exact mapGet_mapSet_self _ _ _
    · rw [if_neg h2]
      exact mapGet_mapSet_self _ _ _

theorem translateMiss_fresh_ok (st : SvcState) (fetch : Fetch)
    (s t x v : String) (calls : Nat)
    (hp : st.promiseKeys.contains (s ++ "_" ++ t ++ "_" ++ x) = false)
    (hrun : TranslationService.executeTask fetch x = (.ok v, calls)) :
    TranslationService.translateMiss st fetch s t x
      = (.ok v, { st with
          resultCache := st.resultCache.set s t x v,
          queuePushes := st.queuePushes + 1,
          remoteCalls := st.remoteCalls + calls }) := by
  rw [TranslationService.translateMiss, if_neg (by rw [hp]; simp), hrun]
  simp [List.erase_cons_head]

theorem translateMiss_fresh_err (st : SvcState) (fetch : Fetch)
    (s t x : String) (e : TErr) (calls : Nat)
    (hp : st.promiseKeys.contains (s ++ "_" ++ t ++ "_" ++ x) = false)
    (hrun : TranslationService.executeTask fetch x = (.error e, calls)) :
    TranslationService.translateMiss st fetch s t x
      = (.err e, { st with
          queuePushes := st.queuePushes + 1,
          remoteCalls := st.remoteCalls + calls }) := by
  rw [TranslationService.translateMiss, if_neg (by rw [hp]; simp), hrun]
  simp [List.erase_cons_head]

theorem translate_hit (st : SvcState) (fetch : Fetch) (x v : String)
    (htrim : jsTrim x ≠ "") (hv : v ≠ "")
    (hc : mapGet st.resultCache.cache (LRUCache.mkKey "ja" "zh" x) = some v) :
    TranslationService.translate st fetch "ja" "zh" x
      = (.ok v, { st with
          resultCache := (st.resultCache.get "ja" "zh" x).2,
          cacheHits := st.cacheHits + 1 }) := by
  rw [TranslationService.translate, if_neg (by simp), if_neg htrim]
  dsimp only
  rw [LRUCache.get_fst_eq_of_some st.resultCache "ja" "zh" x v hc]
  dsimp only
  rw [if_neg hv]

theorem translate_from_empty (st : SvcState) (fetch : Fetch) (x : String)
    (htrim : jsTrim x ≠ "")
    (hc : mapGet st.resultCache.cache (LRUCache.mkKey "ja" "zh" x) = some "") :
    TranslationService.translate st fetch "ja" "zh" x
      = TranslationService.translateMiss st fetch "ja" "zh" x := by
  rw [TranslationService.translate, if_neg (by simp), if_neg htrim,
    LRUCache.get_of_empty_val st.resultCache "ja" "zh" x hc]
  dsimp only
  rw [if_pos rfl]

theorem translate_from_none (st : SvcState) (fetch : Fetch) (x : String)
    (htrim : jsTrim x ≠ "")
    (hc : mapGet st.resultCache.cache (LRUCache.mkKey "ja" "zh" x) = none) :
    TranslationService.translate st fetch "ja" "zh" x
      = TranslationService.translateMiss st fetch "ja" "zh" x := by
  rw [TranslationService.translate, if_neg (by simp), if_neg htrim,
    LRUCache.get_eq_of_none st.resultCache "ja" "zh" x hc]

/-- C7: a whitespace-only text (the empty string included) passed to
`translate` with the supported language pair is returned unchanged, and the
whole service state is untouched: no remote call, no queueing, no
result-cache write. -/
theorem translate_whitespace_short_circuit (st : SvcState) (fetch : Fetch)
    (text : String) (h : jsTrim text = "") :
    TranslationService.translate st fetch "ja" "zh" text = (.ok text, st) := by
  rw [TranslationService.translate, if_neg (by simp), if_pos h]

/-- Witness for C7 at the one-space text. -/
theorem translate_whitespace_short_circuit_witness :
    TranslationService.translate SvcState.init c1Fetch "ja" "zh" " "
      = (.ok " ", SvcState.init) :=
  translate_whitespace_short_circuit SvcState.init c1Fetch " " (by decide)

/-- C10: a result-cache entry storing the empty string is returned by `get`
without being promoted (the cache is returned unchanged), and `translate`
treats it as a miss: it enqueues a new request for the key and returns the
outcome of the fresh execution rather than the cached empty string. -/
theorem cached_empty_string_treated_as_miss (st : SvcState) (fetch : Fetch)
    (x : String)
    (hc : mapGet st.resultCache.cache (LRUCache.mkKey "ja" "zh" x) = some "")
    (htrim : jsTrim x ≠ "")
    (hp : st.promiseKeys = []) :
    st.resultCache.get "ja" "zh" x = (some "", st.resultCache) ∧
    (TranslationService.translate st fetch "ja" "zh" x).2.queuePushes
      = st.queuePushes + 1 ∧
    (TranslationService.translate st fetch "ja" "zh" x).1
      = TransOutcome.ofExcept (TranslationService.executeTask fetch x).1 := by
  have hmiss := translate_from_empty st fetch x htrim hc
  have hcont : st.promiseKeys.contains ("ja" ++ "_" ++ "zh" ++ "_" ++ x) = false := by
    rw [hp]
    rfl
  refine ⟨LRUCache.get_of_empty_val st.resultCache "ja" "zh" x hc, ?_, ?_⟩
  · cases hrun : TranslationService.executeTask fetch x with
    | mk res calls =>
      cases res with
      | ok v =>
        rw [hmiss, translateMiss_fresh_ok st fetch "ja" "zh" x v calls hcont hrun]
      | error e =>
        rw [hmiss, translateMiss_fresh_err st fetch "ja" "zh" x e calls hcont hrun]
  · cases hrun : TranslationService.executeTask fetch x with
    | mk res calls =>
      cases res with
      | ok v =>
        rw [hmiss, translateMiss_fresh_ok st fetch "ja" "zh" x v calls hcont hrun]
        simp [hrun, TransOutcome.ofExcept]
      | error e =>
        rw [hmiss, translateMiss_fresh_err st fetch "ja" "zh" x e calls hcont hrun]
        simp [hrun, TransOutcome.ofExcept]

/-- A service state whose result cache holds an empty-string value. -/
def c10State : SvcState :=
  { SvcState.init with resultCache := LRUCache.init.set "ja" "zh" "こんにちは" "" }

/-- Witness for C10 at a concrete state holding a cached empty string. -/
theorem cached_empty_string_treated_as_miss_witness :
    c10State.resultCache.get "ja" "zh" "こんにちは"
      = (some "", c10State.resultCache) :=
  (cached_empty_string_treated_as_miss c10State
    c1Fetch "こんにちは" (by decide) (by decide) (by decide)).1

/-! ### C6: idempotence of a repeated `translate` -/

/-- A remote stub that always fails. -/
def c6FailFetch : Fetch := fun _ _ => .error ()

/-- Counterexample to C6 as stated: when the first `translate` of a key
fails (retry exhaustion), nothing is cached, so the second call with the
same key is *not* served from the result cache — it issues four further
remote calls (4 after the first call, 8 after the second) and records no
cache hit. -/
theorem translate_twice_not_cached_counterexample :
    (TranslationService.translate SvcState.init c6FailFetch "ja" "zh" "hello").2.remoteCalls
      = 4 ∧
    (TranslationService.translate
        (TranslationService.translate SvcState.init c6FailFetch "ja" "zh" "hello").2
        c6FailFetch "ja" "zh" "hello").2.remoteCalls = 8 ∧
    (TranslationService.translate
        (TranslationService.translate SvcState.init c6FailFetch "ja" "zh" "hello").2
        c6FailFetch "ja" "zh" "hello").2.cacheHits = 0 := by decide

theorem translate_ok_caches (st : SvcState) (fetch : Fetch) (x v : String)
    (st₁ : SvcState) (hp : st.promiseKeys = []) (htrim : jsTrim x ≠ "")
    (hfirst : TranslationService.translate st fetch "ja" "zh" x = (.ok v, st₁)) :
    v ≠ "" ∧ mapGet st₁.resultCache.cache (LRUCache.mkKey "ja" "zh" x) = some v := by
  have hcont : st.promiseKeys.contains ("ja" ++ "_" ++ "zh" ++ "_" ++ x) = false := by
    rw [hp]
    rfl
  have hfresh : ∀ hmiss : TranslationService.translate st fetch "ja" "zh" x
        = TranslationService.translateMiss st fetch "ja" "zh" x,
      v ≠ "" ∧ mapGet st₁.resultCache.cache (LRUCache.mkKey "ja" "zh" x) = some v := by
    intro hmiss
    rw [hmiss] at hfirst
    cases hrun : TranslationService.executeTask fetch x with
    | mk res calls =>
      cases res with
      | ok w =>
        rw [translateMiss_fresh_ok st fetch "ja" "zh" x w calls hcont hrun] at hfirst
        have hw : jsTrim w ≠ "" := executeTask_ok_trim_ne fetch x w calls hrun htrim
        have hvw : v = w ∧ st₁ = { st with
            resultCache := st.resultCache.set "ja" "zh" x w,
            queuePushes := st.queuePushes + 1,
            remoteCalls := st.remoteCalls + calls } := by
          constructor
          · exact (TransOutcome.ok.injEq _ _).mp (congrArg Prod.fst hfirst).symm
          · exact (congrArg Prod.snd hfirst).symm
        refine ⟨?_, ?_⟩
        · rw [hvw.1]
          exact ne_empty_of_jsTrim_ne w hw
        · rw [hvw.1, hvw.2]
          exact LRUCache.mapGet_set_self st.resultCache "ja" "zh" x w
      | error e =>
        rw [translateMiss_fresh_err st fetch "ja" "zh" x e calls hcont hrun] at hfirst
        exact absurd (congrArg Prod.fst hfirst) (by simp)
  cases hg : mapGet st.resultCache.cache (LRUCache.mkKey "ja" "zh" x) with
  | none => exact hfresh (translate_from_none st fetch x htrim hg)
  | some c =>
    by_cases hce : c = ""
    · rw [hce] at hg
      exact hfresh (translate_from_empty st fetch x htrim hg)
    · rw [translate_hit st fetch x c htrim hce hg] at hfirst
      have hvc : v = c ∧ st₁ = { st with
          resultCache := (st.resultCache.get "ja" "zh" x).2,
          cacheHits := st.cacheHits + 1 } := by
        constructor
        · exact (TransOutcome.ok.injEq _ _).mp (congrArg Prod.fst hfirst).symm
        · exact (congrArg Prod.snd hfirst).symm
      refine ⟨?_, ?_⟩
      · rw [hvc.1]
        exact hce
      · rw [hvc.1, hvc.2]
        show mapGet ((st.resultCache.get "ja" "zh" x).2).cache
          (LRUCache.mkKey "ja" "zh" x) = some c
        rw [LRUCache.get_cache_eq]
        exact hg

/-- C6 (amended): when the first `translate` of a non-whitespace text under
the supported pair *succeeds* (and no request for the key is pending), the
second call with the same key returns the identical result, is served from
the result cache (cacheHits grows by one), and changes nothing of the state
but the cache recency order — in particular it issues no remote call and
pushes nothing onto the request queue. -/
theorem translate_idempotent_second_cached (st : SvcState) (fetch : Fetch)
    (x v : String) (st₁ : SvcState)
    (hp : st.promiseKeys = []) (htrim : jsTrim x ≠ "")
    (hfirst : TranslationService.translate st fetch "ja" "zh" x = (.ok v, st₁)) :
    TranslationService.translate st₁ fetch "ja" "zh" x
      = (.ok v, { st₁ with
          resultCache := (st₁.resultCache.get "ja" "zh" x).2,
          cacheHits := st₁.cacheHits + 1 }) := by
  obtain ⟨hv, hc⟩ := translate_ok_caches st fetch x v st₁ hp htrim hfirst
  exact translate_hit st₁ fetch x v htrim hv hc

/-- The state after a first successful `translate` of "hello". -/
def c6St1 : SvcState :=
  (TranslationService.translate SvcState.init c1Fetch "ja" "zh" "hello").2

/-- Witness for the amended C6 at a concrete first call. -/
theorem translate_idempotent_second_cached_witness :
    TranslationService.translate c6St1 c1Fetch "ja" "zh" "hello"
      = (.ok "译", { c6St1 with
          resultCache := (c6St1.resultCache.get "ja" "zh" "hello").2,
          cacheHits := c6St1.cacheHits + 1 }) :=
  translate_idempotent_second_cached SvcState.init c1Fetch "hello" "译" c6St1
    (by decide) (by decide) (by decide)

/-! ### C8: the dynamic sub-batch size -/

/-- Sixteen one-character texts. -/
def c8Texts : List String :=
  (List.range 16).map (fun j => String.mk [Nat.digitChar j])

/-- A service state with the first twelve of `c8Texts` already cached. -/
def c8State : SvcState :=
  ⟨(c8Texts.take 12).foldl (fun c x => c.set "ja" "zh" x "T") LRUCache.init,
    [], 0, 0, 0⟩

/-- Modelled from the spec: the dynamic sub-batch size shrunk by the square
root of the *remaining* (not-yet-cached) item count, rather than by the
square root of the full input length as the code computes. -/
def specDynamicBatchSize (tasks : List (Nat × String)) : Nat :=
  let totalChars := (tasks.map (fun task => task.2.length)).sum
  let lenFactor :=
    if totalChars ≤ tasks.length then 10000
    else 10000 * tasks.length / totalChars
  max 10 (min 50 (min (intSqrt (25 * tasks.length)) lenFactor))

set_option maxRecDepth 40000 in
/-- C8: the bounds 10 and 50 hold for every input, but the square-root
factor is computed from `texts.length` — the FULL input count — not from the
remaining task count: with 16 input texts of which 12 are already cached
(4 remaining, one character each) the code computes
`max(10, min(50, ⌊√16·5⌋)) = 20`, while the spec's remaining-count reading
gives `max(10, min(50, ⌊√4·5⌋)) = 10`. -/
theorem dynamicBatchSize_uses_full_input_length :
    (∀ (n : Nat) (tasks : List (Nat × String)),
        10 ≤ TranslationService.dynamicBatchSize n tasks ∧
        TranslationService.dynamicBatchSize n tasks ≤ 50) ∧
    TranslationService.dynamicBatchSize c8Texts.length
        (TranslationService.collectTasks "ja" "zh" c8State 0 c8Texts).2.2 = 20 ∧
    specDynamicBatchSize
        (TranslationService.collectTasks "ja" "zh" c8State 0 c8Texts).2.2 = 10 := by
  refine ⟨fun n tasks => ?_, by decide, by decide⟩
  rw [TranslationService.dynamicBatchSize]
  exact ⟨Nat.le_max_left _ _, Nat.max_le.mpr ⟨by norm_num, Nat.min_le_left _ _⟩⟩

/-! ### C2: the promise-cache deduplication invariant

`translate` runs on a single JavaScript thread: its body is atomic from
entry up to `await translationPromise` (the result-cache check, the
promise-cache check, the promise creation, the queue push and the
promise-cache `set` happen with no intervening await).  A set of concurrent
`translate` calls is therefore an interleaving of these atomic steps: the
synchronous prefix of a call (`enter`, splitting into the attach path when
the key is pending and the fresh path otherwise, or `hit` for the early
returns: unsupported pair, whitespace text, result-cache hit), the settling
of a created promise by the queue worker (`settle`, success and failure
alike), the continuation of the owning call after its await — result-cache
write and the `finally` `promiseCache.delete` (`ownerFinish`) — and the
return of a call that attached to a shared promise (`attachedFinish`). -/

/-- `promiseCache.get`: the promise id stored under a key. -/
def pidGet : List (String × Nat) → String → Option Nat
  | [], _ => none
  | (k, v) :: rest, key => if k = key then some v else pidGet rest key

/-- `promiseCache.delete`: remove the entry of a key. -/
def pidDel : List (String × Nat) → String → List (String × Nat)
  | [], _ => []
  | (k, v) :: rest, key => if k = key then rest else (k, v) :: pidDel rest key

/-- The phase of one concurrent `translate` call. -/
inductive DPhase
  | ready
  | owner (pid : Nat)
  | attached (pid : Nat)
  | done
  deriving DecidableEq, Repr

/-- One concurrent `translate` call: its cache key and its phase. -/
structure DThread where
  key : String
  phase : DPhase
  deriving DecidableEq, Repr

/-- The shared state of the interleaving: the promise cache (key to promise
id), the settled promise ids, a ghost count of queue pushes, a fresh-id
counter, and the calls. -/
structure DState where
  pending : List (String × Nat)
  settled : List Nat
  queuePushes : Nat
  nextPid : Nat
  threads : List DThread
  deriving DecidableEq, Repr

/-- The atomic steps of the interleaving. -/
inductive DAction
  | hit (i : Nat)
  | enter (i : Nat)
  | settle (p : Nat)
  | ownerFinish (i : Nat)
  | attachedFinish (i : Nat)
  deriving DecidableEq, Repr

/-- One atomic step (`none` when the action is not enabled). -/
def dstep (s : DState) : DAction → Option DState
  | .hit i =>
    match s.threads[i]? with
    | some t =>
      match t.phase with
      | .ready => some { s with threads := s.threads.set i ⟨t.key, .done⟩ }
      | _ => none
    | none => none
  | .enter i =>
    match s.threads[i]? with
    | some t =>
      match t.phase with
      | .ready =>
        match pidGet s.pending t.key with
        | some p => some { s with threads := s.threads.set i ⟨t.key, .attached p⟩ }
        | none =>
          some { s with
            pending := (t.key, s.nextPid) :: s.pending,
            queuePushes := s.queuePushes + 1,
            nextPid := s.nextPid + 1,
            threads := s.threads.set i ⟨t.key, .owner s.nextPid⟩ }
      | _ => none
    | none => none
  | .settle p =>
    if p < s.nextPid then some { s with settled := p :: s.settled } else none
  | .ownerFinish i =>
    match s.threads[i]? with
    | some t =>
      match t.phase with
      | .owner p =>
        if s.settled.contains p then
          some { s with pending := pidDel s.pending t.key,
                        threads := s.threads.set i ⟨t.key, .done⟩ }
        else none
      | _ => none
    | none => none
  | .attachedFinish i =>
    match s.threads[i]? with
    | some t =>
      match t.phase with
      | .attached p =>
        if s.settled.contains p then
          some { s with threads := s.threads.set i ⟨t.key, .done⟩ }
        else none
      | _ => none
    | none => none

/-- The start of a set of concurrent calls, one per requested key. -/
def dInit (keys : List String) : DState :=
  ⟨[], [], 0, 0, keys.map (fun k => ⟨k, .ready⟩)⟩

/-- The states reachable by interleaving atomic steps. -/
inductive DReach (init : DState) : DState → Prop
  | refl : DReach init init
  | step (s : DState) (a : DAction) (s' : DState) :
      DReach init s → dstep s a = some s' → DReach init s'

theorem pidGet_eq_none_iff (m : List (String × Nat)) (k : String) :
    pidGet m k = none ↔ k ∉ m.map Prod.fst := by
  induction m with
  | nil => simp [pidGet]
  | cons kv rest ih =>
    obtain ⟨k', v⟩ := kv
    by_cases h : k' = k
    · subst h
      simp [pidGet]
    · rw [pidGet, if_neg h]
      simp only [List.map_cons, List.mem_cons]
      rw [ih]
      constructor
      · intro hn hmem
        rcases hmem with hmem | hmem
        · exact h hmem.symm
        · exact hn hmem
      · intro hn
        intro hmem
        exact hn (Or.inr hmem)

theorem mem_pidDel_of_ne (m : List (String × Nat)) (k : String)
    (kp : String × Nat) (hmem : kp ∈ m) (hne : kp.1 ≠ k) : kp ∈ pidDel m k := by
  induction m with
  | nil => cases hmem
  | cons kv rest ih =>
    obtain ⟨k', v⟩ := kv
    rw [pidDel]
    by_cases h : k' = k
    · rw [if_pos h]
      cases hmem with
      | head => exact absurd h hne
      | tail _ hmem => exact hmem
    · rw [if_neg h]
      cases hmem with
      | head => exact List.mem_cons_self _ _
      | tail _ hmem => exact List.mem_cons_of_mem _ (ih hmem)

theorem pidDel_subset (m : List (String × Nat)) (k : String)
    (kp : String × Nat) (hmem : kp ∈ pidDel m k) : kp ∈ m := by
  induction m with
  | nil => cases hmem
  | cons kv rest ih =>
    obtain ⟨k', v⟩ := kv
    rw [pidDel] at hmem
    by_cases h : k' = k
    · rw [if_pos h] at hmem
      exact List.mem_cons_of_mem _ hmem
    · rw [if_neg h] at hmem
      cases hmem with
      | head => exact List.mem_cons_self _ _
      | tail _ hmem => exact List.mem_cons_of_mem _ (ih hmem)

theorem pidDel_map_fst_sublist (m : List (String × Nat)) (k : String) :
    ((pidDel m k).map Prod.fst).Sublist (m.map Prod.fst) := by
  induction m with
  | nil => simp [pidDel]
  | cons kv rest ih =>
    obtain ⟨k', v⟩ := kv
    rw [pidDel]
    by_cases h : k' = k
    · rw [if_pos h]
      simp only [List.map_cons]
      exact List.sublist_cons_of_sublist _ (List.Sublist.refl _)
    · rw [if_neg h]
      simp only [List.map_cons]
      exact List.Sublist.cons₂ _ ih

theorem pidDel_nodup (m : List (String × Nat)) (k : String)
    (h : (m.map Prod.fst).Nodup) : ((pidDel m k).map Prod.fst).Nodup :=
  (pidDel_map_fst_sublist m k).nodup h

theorem pidGet_pidDel_of_nodup (m : List (String × Nat)) (k : String)
    (h : (m.map Prod.fst).Nodup) : pidGet (pidDel m k) k = none := by
  induction m with
  | nil => rfl
  | cons kv rest ih =>
    obtain ⟨k', v⟩ := kv
    simp only [List.map_cons, List.nodup_cons] at h
    rw [pidDel]
    by_cases hk : k' = k
    · rw [if_pos hk]
      rw [pidGet_eq_none_iff]
      rw [hk] at h
      exact h.1
    · rw [if_neg hk]
      rw [pidGet, if_neg hk]
      exact ih h.2

theorem mem_of_pidGet_eq_some (m : List (String × Nat)) (k : String) (p : Nat)
    (h : pidGet m k = some p) : (k, p) ∈ m := by
  induction m with
  | nil => cases h
  | cons kv rest ih =>
    obtain ⟨k', v⟩ := kv
    rw [pidGet] at h
    by_cases hk : k' = k
    · rw [if_pos hk] at h
      cases h
      rw [hk]
      exact List.mem_cons_self _ _
    · rw [if_neg hk] at h
      exact List.mem_cons_of_mem _ (ih h)

theorem getElem?_set_some_inv {α : Type} (l : List α) (i j : Nat) (x t : α)
    (h : (l.set i x)[j]? = some t) :
    (j = i ∧ i < l.length ∧ t = x) ∨ (j ≠ i ∧ l[j]? = some t) := by
  by_cases hji : j = i
  · subst hji
    by_cases hlen : j < l.length
    · rw [List.getElem?_set_self hlen] at h
      exact Or.inl ⟨rfl, hlen, (Option.some.injEq _ _).mp h.symm⟩
    · rw [List.getElem?_eq_none] at h
      · cases h
      · rw [List.length_set]
        omega
  · right
    refine ⟨hji, ?_⟩
    rw [← h]
    exact (List.getElem?_set_ne (fun he => hji he.symm)).symm

theorem getElem?_set_of_ne {α : Type} (l : List α) (i j : Nat) (x : α)
    (hne : j ≠ i) : (l.set i x)[j]? = l[j]? :=
  List.getElem?_set_ne (fun he => hne he.symm)

/-- The inductive invariant of the interleaving: pending keys are distinct;
every pending entry is owned by a live owner call; every live owner call has
its pending entry; owner promise ids are below the fresh counter and
pairwise distinct. -/
structure DInv (s : DState) : Prop where
  nodupKeys : (s.pending.map Prod.fst).Nodup
  pendingOwner : ∀ kp ∈ s.pending, ∃ (j : Nat) (t : DThread),
    s.threads[j]? = some t ∧ t.key = kp.1 ∧ t.phase = .owner kp.2
  ownerPending : ∀ (j : Nat) (t : DThread) (p : Nat), s.threads[j]? = some t →
    t.phase = .owner p → (t.key, p) ∈ s.pending
  ownerLt : ∀ (j : Nat) (t : DThread) (p : Nat), s.threads[j]? = some t →
    t.phase = .owner p → p < s.nextPid
  ownersDistinct : ∀ (j₁ j₂ : Nat) (t₁ t₂ : DThread) (p : Nat), j₁ ≠ j₂ →
    s.threads[j₁]? = some t₁ → s.threads[j₂]? = some t₂ →
    t₁.phase = .owner p → t₂.phase ≠ .owner p

theorem lt_length_of_getElem_eq_some {α : Type} (l : List α) (i : Nat) (a : α)
    (h : l[i]? = some a) : i < l.length := by
  rw [List.getElem?_eq_some] at h
  exact h.1

theorem pid_mem_unique (m : List (String × Nat)) (k : String) (a b : Nat)
    (h : (m.map Prod.fst).Nodup) (ha : (k, a) ∈ m) (hb : (k, b) ∈ m) : a = b := by
  induction m with
  | nil => cases ha
  | cons kv rest ih =>
    simp only [List.map_cons, List.nodup_cons] at h
    cases ha with
    | head =>
      cases hb with
      | head => rfl
      | tail _ hb =>
        exact absurd (List.mem_map_of_mem Prod.fst hb) h.1
    | tail _ ha =>
      cases hb with
      | head =>
        exact absurd (List.mem_map_of_mem Prod.fst ha) h.1
      | tail _ hb => exact ih h.2 ha hb

theorem DInv_set_non_owner (s : DState) (h : DInv s) (i : Nat) (t x : DThread)
    (hti : s.threads[i]? = some t)
    (ht : ∀ p : Nat, t.phase ≠ .owner p)
    (hx : ∀ p : Nat, x.phase ≠ .owner p) :
    DInv { s with threads := s.threads.set i x } := by
  constructor
  · exact h.nodupKeys
  · intro kp hkp
    obtain ⟨j, u, hju, hkey, hph⟩ := h.pendingOwner kp hkp
    have hji : j ≠ i := by
      intro he
      subst he
      have hut : u = t := Option.some.inj (hju.symm.trans hti)
      rw [hut] at hph
      exact ht kp.2 hph
    refine ⟨j, u, ?_, hkey, hph⟩
    show (s.threads.set i x)[j]? = some u
    rw [getElem?_set_of_ne s.threads i j x hji]
    exact hju
  · intro j u p hju hph
    rcases getElem?_set_some_inv s.threads i j x u hju with ⟨hji, hlen, rfl⟩ | ⟨hji, hju⟩
    · exact absurd hph (hx p)
    · exact h.ownerPending j u p hju hph
  · intro j u p hju hph
    rcases getElem?_set_some_inv s.threads i j x u hju with ⟨hji, hlen, rfl⟩ | ⟨hji, hju⟩
    · exact absurd hph (hx p)
    · exact h.ownerLt j u p hju hph
  · intro j₁ j₂ u₁ u₂ p hne h₁ h₂ hph₁
    rcases getElem?_set_some_inv s.threads i j₁ x u₁ h₁ with ⟨hj1, hlen1, rfl⟩ | ⟨hj1, h₁⟩
    · exact absurd hph₁ (hx p)
    · rcases getElem?_set_some_inv s.threads i j₂ x u₂ h₂ with ⟨hj2, hlen2, rfl⟩ | ⟨hj2, h₂⟩
      · exact hx p
      · exact h.ownersDistinct j₁ j₂ u₁ u₂ p hne h₁ h₂ hph₁

theorem DInv_step (s : DState) (a : DAction) (s' : DState)
    (h : DInv s) (hstep : dstep s a = some s') : DInv s' := by
  cases a with
  | hit i =>
    rw [dstep] at hstep
    cases hti : s.threads[i]? with
    | none =>
      rw [hti] at hstep
      exact Option.noConfusion hstep
    | some t =>
      rw [hti] at hstep
      obtain ⟨k, ph⟩ := t
      cases ph with
      | ready =>
        have hs' := Option.some.inj hstep
        subst hs'
        exact DInv_set_non_owner s h i ⟨k, .ready⟩ ⟨k, .done⟩ hti
          (fun p hp => DPhase.noConfusion hp) (fun p hp => DPhase.noConfusion hp)
      | owner p => exact Option.noConfusion hstep
      | attached p => exact Option.noConfusion hstep
      | done => exact Option.noConfusion hstep
  | enter i =>
    rw [dstep] at hstep
    cases hti : s.threads[i]? with
    | none =>
      rw [hti] at hstep
      exact Option.noConfusion hstep
    | some t =>
      rw [hti] at hstep
      obtain ⟨k, ph⟩ := t
      cases ph with
      | owner p => exact Option.noConfusion hstep
      | attached p => exact Option.noConfusion hstep
      | done => exact Option.noConfusion hstep
      | ready =>
        dsimp only at hstep
        cases hget : pidGet s.pending k with
        | some p =>
          rw [hget] at hstep
          have hs' := Option.some.inj hstep
          subst hs'
          exact DInv_set_non_owner s h i ⟨k, .ready⟩ ⟨k, .attached p⟩ hti
            (fun q hq => DPhase.noConfusion hq) (fun q hq => DPhase.noConfusion hq)
        | none =>
          rw [hget] at hstep
          have hs' := Option.some.inj hstep
          subst hs'
          have hlen : i < s.threads.length :=
            lt_length_of_getElem_eq_some s.threads i _ hti
          have hnotmem : k ∉ s.pending.map Prod.fst :=
            (pidGet_eq_none_iff s.pending k).mp hget
          constructor
          · simp only [List.map_cons]
            exact List.nodup_cons.mpr ⟨hnotmem, h.nodupKeys⟩
          · intro kp hkp
            cases hkp with
            | head =>
              refine ⟨i, ⟨k, .owner s.nextPid⟩, ?_, rfl, rfl⟩
              show (s.threads.set i ⟨k, .owner s.nextPid⟩)[i]? = _
              exact List.getElem?_set_self hlen
            | tail _ hkp =>
              obtain ⟨j, u, hju, hkey, hph⟩ := h.pendingOwner kp hkp
              have hji : j ≠ i := by
                intro he
                subst he
                have hut : u = ⟨k, .ready⟩ := Option.some.inj (hju.symm.trans hti)
                rw [hut] at hph
                exact DPhase.noConfusion hph
              refine ⟨j, u, ?_, hkey, hph⟩
              show (s.threads.set i ⟨k, .owner s.nextPid⟩)[j]? = some u
              rw [getElem?_set_of_ne s.threads i j _ hji]
              exact hju
          · intro j u p hju hph
            rcases getElem?_set_some_inv s.threads i j _ u hju with
              ⟨hji, hl2, rfl⟩ | ⟨hji, hju⟩
            · have hp : p = s.nextPid := (DPhase.owner.injEq _ _).mp hph.symm
              subst hp
              exact List.mem_cons_self _ _
            · exact List.mem_cons_of_mem _ (h.ownerPending j u p hju hph)
          · intro j u p hju hph
            dsimp only
            rcases getElem?_set_some_inv s.threads i j _ u hju with
              ⟨hji, hl2, rfl⟩ | ⟨hji, hju⟩
            · have hp : p = s.nextPid := (DPhase.owner.injEq _ _).mp hph.symm
              omega
            · have := h.ownerLt j u p hju hph
              omega
          · intro j₁ j₂ u₁ u₂ p hne h₁ h₂ hph₁
            rcases getElem?_set_some_inv s.threads i j₁ _ u₁ h₁ with
              ⟨hj1, hl1, rfl⟩ | ⟨hj1, h₁⟩
            · have hp : p = s.nextPid := (DPhase.owner.injEq _ _).mp hph₁.symm
              subst hp
              rcases getElem?_set_some_inv s.threads i j₂ _ u₂ h₂ with
                ⟨hj2, hl2, rfl⟩ | ⟨hj2, h₂⟩
              · exact absurd (hj1.trans hj2.symm) hne
              · intro hph₂
                have := h.ownerLt j₂ u₂ _ h₂ hph₂
                omega
            · rcases getElem?_set_some_inv s.threads i j₂ _ u₂ h₂ with
                ⟨hj2, hl2, rfl⟩ | ⟨hj2, h₂⟩
              · intro hph₂
                have hp : s.nextPid = p := (DPhase.owner.injEq _ _).mp hph₂
                subst hp
                have := h.ownerLt j₁ u₁ _ h₁ hph₁
                omega
              · exact h.ownersDistinct j₁ j₂ u₁ u₂ p hne h₁ h₂ hph₁
  | settle p =>
    rw [dstep] at hstep
    by_cases hp : p < s.nextPid
    · rw [if_pos hp] at hstep
      have hs' := Option.some.inj hstep
      subst hs'
      exact ⟨h.nodupKeys, h.pendingOwner, h.ownerPending, h.ownerLt,
        h.ownersDistinct⟩
    · rw [if_neg hp] at hstep
      exact Option.noConfusion hstep
  | ownerFinish i =>
    rw [dstep] at hstep
    cases hti : s.threads[i]? with
    | none =>
      rw [hti] at hstep
      exact Option.noConfusion hstep
    | some t =>
      rw [hti] at hstep
      obtain ⟨k, ph⟩ := t
      cases ph with
      | ready => exact Option.noConfusion hstep
      | attached p => exact Option.noConfusion hstep
      | done => exact Option.noConfusion hstep
      | owner p =>
        dsimp only at hstep
        by_cases hset : s.settled.contains p
        · rw [if_pos hset] at hstep
          have hs' := Option.some.inj hstep
          subst hs'
          have hkdel : k ∉ (pidDel s.pending k).map Prod.fst := by
            rw [← pidGet_eq_none_iff]
            exact pidGet_pidDel_of_nodup s.pending k h.nodupKeys
          have hip : ((k : String), p) ∈ s.pending :=
            h.ownerPending i ⟨k, .owner p⟩ p hti rfl
          constructor
          · exact pidDel_nodup s.pending k h.nodupKeys
          · intro kp hkp
            have hkpmem : kp ∈ s.pending := pidDel_subset s.pending k kp hkp
            obtain ⟨j, u, hju, hkey, hph⟩ := h.pendingOwner kp hkpmem
            have hji : j ≠ i := by
              intro he
              subst he
              have hut : u = ⟨k, .owner p⟩ := Option.some.inj (hju.symm.trans hti)
              rw [hut] at hkey
              have hk1 : kp.1 = k := hkey.symm
              have hmem2 : kp.1 ∈ (pidDel s.pending k).map Prod.fst :=
                List.mem_map_of_mem Prod.fst hkp
              rw [hk1] at hmem2
              exact hkdel hmem2
            refine ⟨j, u, ?_, hkey, hph⟩
            show (s.threads.set i ⟨k, .done⟩)[j]? = some u
            rw [getElem?_set_of_ne s.threads i j _ hji]
            exact hju
          · intro j u q hju hph
            rcases getElem?_set_some_inv s.threads i j _ u hju with
              ⟨hji, hl2, rfl⟩ | ⟨hji, hju⟩
            · exact absurd hph (fun hp => DPhase.noConfusion hp)
            · have humem : (u.key, q) ∈ s.pending := h.ownerPending j u q hju hph
              have hune : u.key ≠ k := by
                intro he
                rw [he] at humem
                have hqp : q = p :=
                  pid_mem_unique s.pending k q p h.nodupKeys humem hip
                subst hqp
                exact h.ownersDistinct j i u ⟨k, .owner q⟩ q hji hju hti hph rfl
              exact mem_pidDel_of_ne s.pending k (u.key, q) humem hune
          · intro j u q hju hph
            rcases getElem?_set_some_inv s.threads i j _ u hju with
              ⟨hji, hl2, rfl⟩ | ⟨hji, hju⟩
            · exact absurd hph (fun hp => DPhase.noConfusion hp)
            · exact h.ownerLt j u q hju hph
          · intro j₁ j₂ u₁ u₂ q hne h₁ h₂ hph₁
            rcases getElem?_set_some_inv s.threads i j₁ _ u₁ h₁ with
              ⟨hj1, hl1, rfl⟩ | ⟨hj1, h₁⟩
            · exact absurd hph₁ (fun hp => DPhase.noConfusion hp)
            · rcases getElem?_set_some_inv s.threads i j₂ _ u₂ h₂ with
                ⟨hj2, hl2, rfl⟩ | ⟨hj2, h₂⟩
              · exact fun hp => DPhase.noConfusion hp
              · exact h.ownersDistinct j₁ j₂ u₁ u₂ q hne h₁ h₂ hph₁
        · rw [if_neg hset] at hstep
          exact Option.noConfusion hstep
  | attachedFinish i =>
    rw [dstep] at hstep
    cases hti : s.threads[i]? with
    | none =>
      rw [hti] at hstep
      exact Option.noConfusion hstep
    | some t =>
      rw [hti] at hstep
      obtain ⟨k, ph⟩ := t
      cases ph with
      | ready => exact Option.noConfusion hstep
      | owner p => exact Option.noConfusion hstep
      | done => exact Option.noConfusion hstep
      | attached p =>
        dsimp only at hstep
        by_cases hset : s.settled.contains p
        · rw [if_pos hset] at hstep
          have hs' := Option.some.inj hstep
          subst hs'
          exact DInv_set_non_owner s h i ⟨k, .attached p⟩ ⟨k, .done⟩ hti
            (fun q hq => DPhase.noConfusion hq) (fun q hq => DPhase.noConfusion hq)
        · rw [if_neg hset] at hstep
          exact Option.noConfusion hstep

theorem DInv_dInit (keys : List String) : DInv (dInit keys) := by
  have hready : ∀ (j : Nat) (t : DThread),
      (dInit keys).threads[j]? = some t → t.phase = .ready := by
    intro j t hjt
    have ht : t ∈ (dInit keys).threads := List.getElem?_mem hjt
    rw [dInit] at ht
    simp only [List.mem_map] at ht
    obtain ⟨k, _, rfl⟩ := ht
    rfl
  constructor
  · exact List.nodup_nil
  · intro kp hkp
    cases hkp
  · intro j t p hjt hph
    rw [hready j t hjt] at hph
    exact DPhase.noConfusion hph
  · intro j t p hjt hph
    rw [hready j t hjt] at hph
    exact DPhase.noConfusion hph
  · intro j₁ j₂ t₁ t₂ p hne h₁ h₂ hph₁
    rw [hready j₁ t₁ h₁] at hph₁
    exact DPhase.noConfusion hph₁

theorem DInv_reach (init : DState) (hinit : DInv init) (s : DState)
    (hs : DReach init s) : DInv s := by
  induction hs with
  | refl => exact hinit
  | step u a u' _ hstep ih => exact DInv_step u a u' ih hstep

/-- C2: over every interleaving of a set of concurrent `translate` calls:
(1) the promise cache holds at most one pending entry per key; (2) a call
entering while its key already has a pending entry attaches to the existing
shared promise — the promise cache, the queue-push count and everything but
that call's phase are unchanged; (3) once the promise of an owning call has
settled (success and failure alike), the owner's completion step deletes the
key's pending entry, after which the key is no longer pending; (4) when
every call has finished, the promise cache is empty. -/
theorem promise_cache_dedup (keys : List String) (s : DState)
    (hs : DReach (dInit keys) s) :
    (s.pending.map Prod.fst).Nodup ∧
    (∀ (i : Nat) (t : DThread) (p : Nat), s.threads[i]? = some t →
        t.phase = .ready → pidGet s.pending t.key = some p →
        dstep s (.enter i)
          = some { s with threads := s.threads.set i ⟨t.key, .attached p⟩ }) ∧
    (∀ (i : Nat) (t : DThread) (p : Nat), s.threads[i]? = some t →
        t.phase = .owner p → s.settled.contains p = true →
        dstep s (.ownerFinish i)
          = some { s with pending := pidDel s.pending t.key,
                          threads := s.threads.set i ⟨t.key, .done⟩ } ∧
        pidGet (pidDel s.pending t.key) t.key = none) ∧
    ((∀ t ∈ s.threads, t.phase = .done) → s.pending = []) := by
  have hinv : DInv s := DInv_reach (dInit keys) (DInv_dInit keys) s hs
  refine ⟨hinv.nodupKeys, ?_, ?_, ?_⟩
  · intro i t p hti hph hget
    obtain ⟨k, ph⟩ := t
    have hph' : ph = .ready := hph
    subst hph'
    rw [dstep, hti]
    dsimp only
    rw [show pidGet s.pending k = some p from hget]
  · intro i t p hti hph hset
    obtain ⟨k, ph⟩ := t
    have hph' : ph = .owner p := hph
    subst hph'
    refine ⟨?_, pidGet_pidDel_of_nodup s.pending k hinv.nodupKeys⟩
    rw [dstep, hti]
    dsimp only
    rw [if_pos hset]
  · intro hdone
    cases hpend : s.pending with
    | nil => rfl
    | cons kp rest =>
      have hkp : kp ∈ s.pending := by
        rw [hpend]
        exact List.mem_cons_self _ _
      obtain ⟨j, u, hju, hkey, hph⟩ := hinv.pendingOwner kp hkp
      have hu : u ∈ s.threads := List.getElem?_mem hju
      rw [hdone u hu] at hph
      exact DPhase.noConfusion hph

/-- A reachable state of two concurrent calls for the key "k": the first
call owns promise 0, the second has not yet entered. -/
def c2S1 : DState :=
  ⟨[("k", 0)], [], 1, 1, [⟨"k", .owner 0⟩, ⟨"k", .ready⟩]⟩

/-- Witness for C2: in `c2S1` the second call's entry attaches to the
pending promise 0 — the promise cache and the queue-push count are
untouched. -/
theorem promise_cache_dedup_witness :
    dstep c2S1 (.enter 1)
      = some { c2S1 with threads := c2S1.threads.set 1 ⟨"k", .attached 0⟩ } :=
  (promise_cache_dedup ["k", "k"] c2S1
      (DReach.step (dInit ["k", "k"]) (.enter 0) c2S1 DReach.refl (by decide))).2.1
    1 ⟨"k", .ready⟩ 0 (by decide) rfl (by decide)

/-! ### C4, C5, C9: the `useTranslation` hook

`translateSubtitles` runs per-item `translateBatch(index, text)` helpers in
waves of five.  On the single JavaScript thread each helper is atomic from
entry to its `await` — the entry cancellation check, the hook-cache check
and the hit path (write, cache-stat, progress increment, return) have no
intervening await — and atomic again from the `await` to its end: the
post-await cancellation check with discard, the write-back, hook-cache
`set` and progress increment on success, or the catch handler (write the
original text, no increment) on rejection.  A session is an interleaving of
these halves (`start`, `finish` keyed by an oracle `out` giving each index's
settled outcome), `cancelTranslation` (`cancel`), and the final
`if (!isCancelledRef.current)` completion-callback block (`finishSession`).
The model allows any interleaving of item halves, which includes the
wave-of-five schedules the loop produces. -/

/-- The phase of one per-item `translateBatch` helper. -/
inductive HPhase
  | notStarted
  | running
  | doneHit
  | doneOk
  | doneFail
  | doneSkip
  | doneDiscard
  deriving DecidableEq, Repr

/-- A helper has returned. -/
def HPhase.isDone : HPhase → Bool
  | .notStarted => false
  | .running => false
  | _ => true

/-- The state of one `translateSubtitles` session: the mutable subtitle
texts, the originals, the hook-level cache `translationCacheRef`, the
progress pair mirrored by `progressRef`/`setTranslationProgress`, the
cancellation flag, whether `onTranslated` has fired, the item phases and
the target language. -/
structure HState where
  subs : List String
  orig : List String
  hookCache : List (String × String)
  completed : Nat
  total : Nat
  cancelled : Bool
  callbackFired : Bool
  phases : List HPhase
  targetLanguage : String
  deriving DecidableEq, Repr

/-- The atomic steps of a session. -/
inductive HAction
  | start (i : Nat)
  | finish (i : Nat)
  | cancel
  | finishSession
  deriving DecidableEq, Repr

/-- One atomic step (`none` when not enabled).  `out i` is the settled
outcome of the service call of item `i`: `some v` resolution with `v`,
`none` rejection after retry exhaustion. -/
def hstep (out : Nat → Option String) (s : HState) : HAction → Option HState
  | .start i =>
    match s.phases[i]?, s.orig[i]? with
    | some .notStarted, some text =>
      if s.cancelled then
        some { s with phases := s.phases.set i .doneSkip }
      else
        match mapGet s.hookCache (text ++ "_" ++ s.targetLanguage) with
        | some cached =>
          some { s with subs := s.subs.set i cached,
                        completed := s.completed + 1,
                        phases := s.phases.set i .doneHit }
        | none => some { s with phases := s.phases.set i .running }
    | _, _ => none
  | .finish i =>
    match s.phases[i]?, s.orig[i]? with
    | some .running, some text =>
      match out i with
      | some v =>
        if s.cancelled then
          some { s with phases := s.phases.set i .doneDiscard }
        else
          some { s with subs := s.subs.set i v,
                        hookCache := mapSet s.hookCache
                          (text ++ "_" ++ s.targetLanguage) v,
                        completed := s.completed + 1,
                        phases := s.phases.set i .doneOk }
      | none =>
        some { s with subs := s.subs.set i text,
                      phases := s.phases.set i .doneFail }
    | _, _ => none
  | .cancel =>
    if s.callbackFired then none
    else some { s with cancelled := true, completed := 0, total := 0 }
  | .finishSession =>
    if s.cancelled then none
    else if s.callbackFired then none
    else if s.phases.all HPhase.isDone then
      some { s with callbackFired := true }
    else none

/-- The session state right after the `translateSubtitles` prologue. -/
def hInit (orig : List String) (tgt : String) : HState :=
  ⟨orig, orig, [], 0, orig.length, false, false,
    orig.map (fun _ => .notStarted), tgt⟩

/-- The states one session can reach. -/
inductive HReach (out : Nat → Option String) (init : HState) : HState → Prop
  | refl : HReach out init init
  | step (s : HState) (a : HAction) (s' : HState) :
      HReach out init s → hstep out s a = some s' → HReach out init s'

theorem countP_set_lemma {α : Type} (l : List α) (i : Nat) (a b : α)
    (q : α → Bool) (h : l[i]? = some a) :
    (l.set i b).countP q + (if q a then 1 else 0)
      = l.countP q + (if q b then 1 else 0) := by
  induction l generalizing i with
  | nil => cases h
  | cons x xs ih =>
    cases i with
    | zero =>
      rw [List.getElem?_cons_zero] at h
      have hax : x = a := Option.some.inj h
      subst hax
      rw [show (x :: xs).set 0 b = b :: xs from rfl,
        List.countP_cons, List.countP_cons]
      omega
    | succ n =>
      rw [List.getElem?_cons_succ] at h
      have hrec := ih n h
      rw [show (x :: xs).set (n + 1) b = x :: xs.set n b from rfl,
        List.countP_cons, List.countP_cons]
      omega

/-- The inductive invariant of a session: after a cancellation the progress
pair is `{0, 0}` and the callback has not fired; while not cancelled,
`completed` counts exactly the items finished through the cache-hit or
success paths, `total` is the item count, and no item was skipped or
discarded; a failed item's subtitle text is its original text. -/
structure HInv (s : HState) : Prop where
  cancelZero : s.cancelled = true →
    s.completed = 0 ∧ s.total = 0 ∧ s.callbackFired = false
  completedCount : s.cancelled = false →
    s.completed = s.phases.countP (fun p => p == .doneHit || p == .doneOk)
  totalLen : s.cancelled = false → s.total = s.phases.length
  noSkip : s.cancelled = false → ∀ (i : Nat) (p : HPhase),
    s.phases[i]? = some p → p ≠ .doneSkip ∧ p ≠ .doneDiscard
  failOrig : ∀ (i : Nat), s.phases[i]? = some .doneFail →
    s.subs[i]? = s.orig[i]?
  subsLen : s.subs.length = s.orig.length

theorem HInv_hstep (out : Nat → Option String) (s : HState) (a : HAction)
    (s' : HState) (h : HInv s) (hst : hstep out s a = some s') : HInv s' := by
  cases a with
  | start i =>
    rw [hstep] at hst
    cases hph : s.phases[i]? with
    | none =>
      rw [hph] at hst
      exact Option.noConfusion hst
    | some ph =>
      rw [hph] at hst
      cases hor : s.orig[i]? with
      | none =>
        rw [hor] at hst
        cases ph <;> exact Option.noConfusion hst
      | some text =>
        rw [hor] at hst
        cases ph with
        | running => exact Option.noConfusion hst
        | doneHit => exact Option.noConfusion hst
        | doneOk => exact Option.noConfusion hst
        | doneFail => exact Option.noConfusion hst
        | doneSkip => exact Option.noConfusion hst
        | doneDiscard => exact Option.noConfusion hst
        | notStarted =>
          dsimp only at hst
          by_cases hc : s.cancelled
          · rw [if_pos hc] at hst
            have hs' := Option.some.inj hst
            subst hs'
            refine ⟨fun _ => h.cancelZero hc, ?_, ?_, ?_, ?_, h.subsLen⟩
            · intro hnc
              exact absurd (hc.symm.trans hnc) (by decide)
            · intro hnc
              exact absurd (hc.symm.trans hnc) (by decide)
            · intro hnc
              exact absurd (hc.symm.trans hnc) (by decide)
            · intro j hj
              rcases getElem?_set_some_inv s.phases i j _ _ hj with
                ⟨hji, hl2, heq⟩ | ⟨hji, hj⟩
              · exact absurd heq (by decide)
              · exact h.failOrig j hj
          · rw [if_neg hc] at hst
            have hcf : s.cancelled = false := Bool.eq_false_iff.mpr hc
            cases hcache : mapGet s.hookCache (text ++ "_" ++ s.targetLanguage) with
            | some cached =>
              rw [hcache] at hst
              have hs' := Option.some.inj hst
              subst hs'
              refine ⟨?_, ?_, ?_, ?_, ?_, ?_⟩
              · intro hcc
                exact absurd (hcf.symm.trans hcc) (by decide)
              · intro _
                dsimp only
                have hcs := countP_set_lemma s.phases i HPhase.notStarted
                  HPhase.doneHit
                  (fun p => p == HPhase.doneHit || p == HPhase.doneOk) hph
                rw [if_neg (by decide), if_pos (by decide)] at hcs
                have hcomp := h.completedCount hcf
                omega
              · intro _
                dsimp only
                rw [List.length_set]
                exact h.totalLen hcf
              · intro _ j p hj
                rcases getElem?_set_some_inv s.phases i j _ _ hj with
                  ⟨hji, hl2, rfl⟩ | ⟨hji, hj⟩
                · exact ⟨by decide, by decide⟩
                · exact h.noSkip hcf j p hj
              · intro j hj
                rcases getElem?_set_some_inv s.phases i j _ _ hj with
                  ⟨hji, hl2, heq⟩ | ⟨hji, hj⟩
                · exact absurd heq (by decide)
                · show (s.subs.set i cached)[j]? = s.orig[j]?
                  rw [getElem?_set_of_ne s.subs i j cached hji]
                  exact h.failOrig j hj
              · dsimp only
                rw [List.length_set]
                exact h.subsLen
            | none =>
              rw [hcache] at hst
              have hs' := Option.some.inj hst
              subst hs'
              refine ⟨?_, ?_, ?_, ?_, ?_, h.subsLen⟩
              · intro hcc
                exact absurd (hcf.symm.trans hcc) (by decide)
              · intro _
                dsimp only
                have hcs := countP_set_lemma s.phases i HPhase.notStarted
                  HPhase.running
                  (fun p => p == HPhase.doneHit || p == HPhase.doneOk) hph
                rw [if_neg (by decide), if_neg (by decide)] at hcs
                have hcomp := h.completedCount hcf
                omega
              · intro _
                dsimp only
                rw [List.length_set]
                exact h.totalLen hcf
              · intro _ j p hj
                rcases getElem?_set_some_inv s.phases i j _ _ hj with
                  ⟨hji, hl2, rfl⟩ | ⟨hji, hj⟩
                · exact ⟨by decide, by decide⟩
                · exact h.noSkip hcf j p hj
              · intro j hj
                rcases getElem?_set_some_inv s.phases i j _ _ hj with
                  ⟨hji, hl2, heq⟩ | ⟨hji, hj⟩
                · exact absurd heq (by decide)
                · exact h.failOrig j hj
  | finish i =>
    rw [hstep] at hst
    cases hph : s.phases[i]? with
    | none =>
      rw [hph] at hst
      exact Option.noConfusion hst
    | some ph =>
      rw [hph] at hst
      cases hor : s.orig[i]? with
      | none =>
        rw [hor] at hst
        cases ph <;> exact Option.noConfusion hst
      | some text =>
        rw [hor] at hst
        cases ph with
        | notStarted => exact Option.noConfusion hst
        | doneHit => exact Option.noConfusion hst
        | doneOk => exact Option.noConfusion hst
        | doneFail => exact Option.noConfusion hst
        | doneSkip => exact Option.noConfusion hst
        | doneDiscard => exact Option.noConfusion hst
        | running =>
          dsimp only at hst
          cases hout : out i with
          | some v =>
            rw [hout] at hst
            dsimp only at hst
            by_cases hc : s.cancelled
            · rw [if_pos hc] at hst
              have hs' := Option.some.inj hst
              subst hs'
              refine ⟨fun _ => h.cancelZero hc, ?_, ?_, ?_, ?_, h.subsLen⟩
              · intro hnc
                exact absurd (hc.symm.trans hnc) (by decide)
              · intro hnc
                exact absurd (hc.symm.trans hnc) (by decide)
              · intro hnc
                exact absurd (hc.symm.trans hnc) (by decide)
              · intro j hj
                rcases getElem?_set_some_inv s.phases i j _ _ hj with
                  ⟨hji, hl2, heq⟩ | ⟨hji, hj⟩
                · exact absurd heq (by decide)
                · exact h.failOrig j hj
            · rw [if_neg hc] at hst
              have hcf : s.cancelled = false := Bool.eq_false_iff.mpr hc
              have hs' := Option.some.inj hst
              subst hs'
              refine ⟨?_, ?_, ?_, ?_, ?_, ?_⟩
              · intro hcc
                exact absurd (hcf.symm.trans hcc) (by decide)
              · intro _
                dsimp only
                have hcs := countP_set_lemma s.phases i HPhase.running
                  HPhase.doneOk
                  (fun p => p == HPhase.doneHit || p == HPhase.doneOk) hph
                rw [if_neg (by decide), if_pos (by decide)] at hcs
                have hcomp := h.completedCount hcf
                omega
              · intro _
                dsimp only
                rw [List.length_set]
                exact h.totalLen hcf
              · intro _ j p hj
                rcases getElem?_set_some_inv s.phases i j _ _ hj with
                  ⟨hji, hl2, rfl⟩ | ⟨hji, hj⟩
                · exact ⟨by decide, by decide⟩
                · exact h.noSkip hcf j p hj
              · intro j hj
                rcases getElem?_set_some_inv s.phases i j _ _ hj with
                  ⟨hji, hl2, heq⟩ | ⟨hji, hj⟩
                · exact absurd heq (by decide)
                · show (s.subs.set i v)[j]? = s.orig[j]?
                  rw [getElem?_set_of_ne s.subs i j v hji]
                  exact h.failOrig j hj
              · dsimp only
                rw [List.length_set]
                exact h.subsLen
          | none =>
            rw [hout] at hst
            dsimp only at hst
            have hs' := Option.some.inj hst
            subst hs'
            have hio : i < s.orig.length :=
              lt_length_of_getElem_eq_some s.orig i _ hor
            have his : i < s.subs.length := by
              rw [h.subsLen]
              exact hio
            refine ⟨fun hcc => h.cancelZero hcc, ?_, ?_, ?_, ?_, ?_⟩
            · intro hnc
              dsimp only
              have hcs := countP_set_lemma s.phases i HPhase.running
                HPhase.doneFail
                (fun p => p == HPhase.doneHit || p == HPhase.doneOk) hph
              rw [if_neg (by decide), if_neg (by decide)] at hcs
              have hcomp := h.completedCount hnc
              omega
            · intro hnc
              dsimp only
              rw [List.length_set]
              exact h.totalLen hnc
            · intro hnc j p hj
              rcases getElem?_set_some_inv s.phases i j _ _ hj with
                ⟨hji, hl2, rfl⟩ | ⟨hji, hj⟩
              · exact ⟨by decide, by decide⟩
              · exact h.noSkip hnc j p hj
            · intro j hj
              rcases getElem?_set_some_inv s.phases i j _ _ hj with
                ⟨hji, hl2, heq⟩ | ⟨hji, hj⟩
              · subst hji
                show (s.subs.set j text)[j]? = s.orig[j]?
                rw [List.getElem?_set_self his, hor]
              · show (s.subs.set i text)[j]? = s.orig[j]?
                rw [getElem?_set_of_ne s.subs i j text hji]
                exact h.failOrig j hj
            · dsimp only
              rw [List.length_set]
              exact h.subsLen
  | cancel =>
    rw [hstep] at hst
    by_cases hcb : s.callbackFired
    · rw [if_pos hcb] at hst
      exact Option.noConfusion hst
    · rw [if_neg hcb] at hst
      have hs' := Option.some.inj hst
      subst hs'
      refine ⟨?_, ?_, ?_, ?_, h.failOrig, h.subsLen⟩
      · intro _
        exact ⟨rfl, rfl, Bool.eq_false_iff.mpr hcb⟩
      · intro hnc
        simp at hnc
      · intro hnc
        simp at hnc
      · intro hnc
        simp at hnc
  | finishSession =>
    rw [hstep] at hst
    by_cases hc : s.cancelled
    · rw [if_pos hc] at hst
      exact Option.noConfusion hst
    · rw [if_neg hc] at hst
      by_cases hcb : s.callbackFired
      · rw [if_pos hcb] at hst
        exact Option.noConfusion hst
      · rw [if_neg hcb] at hst
        by_cases hall : s.phases.all HPhase.isDone
        · rw [if_pos hall] at hst
          have hs' := Option.some.inj hst
          subst hs'
          have hcf : s.cancelled = false := Bool.eq_false_iff.mpr hc
          refine ⟨?_, fun hnc => h.completedCount hnc, fun hnc => h.totalLen hnc,
            fun hnc => h.noSkip hnc, h.failOrig, h.subsLen⟩
          · intro hcc
            exact absurd (hcf.symm.trans hcc) (by decide)
        · rw [if_neg hall] at hst
          exact Option.noConfusion hst

theorem countP_map_notStarted (l : List String) (q : HPhase → Bool)
    (hq : q .notStarted = false) :
    (l.map (fun _ => HPhase.notStarted)).countP q = 0 := by
  induction l with
  | nil => rfl
  | cons x xs ih =>
    rw [List.map_cons, List.countP_cons, ih, if_neg (by rw [hq]; decide)]

theorem HInv_hInit (orig : List String) (tgt : String) :
    HInv (hInit orig tgt) := by
  have hns : ∀ (i : Nat) (p : HPhase),
      (hInit orig tgt).phases[i]? = some p → p = .notStarted := by
    intro i p hp
    have hmem : p ∈ (hInit orig tgt).phases := List.getElem?_mem hp
    rw [hInit] at hmem
    simp only [List.mem_map] at hmem
    exact hmem.choose_spec.2.symm
  constructor
  · intro hcc
    exact Bool.noConfusion hcc
  · intro _
    exact (countP_map_notStarted orig _ (by decide)).symm
  · intro _
    exact (List.length_map _ _).symm
  · intro _ i p hp
    rw [hns i p hp]
    exact ⟨by decide, by decide⟩
  · intro i hp
    exact absurd (hns i _ hp) (by decide)
  · rfl

theorem HInv_reach (out : Nat → Option String) (orig : List String)
    (tgt : String) (s : HState) (hs : HReach out (hInit orig tgt) s) :
    HInv s := by
  induction hs with
  | refl => exact HInv_hInit orig tgt
  | step u a u' _ hstep ih => exact HInv_hstep out u a u' ih hstep

theorem HPhase.done_cases (p : HPhase) (h1 : p.isDone = true)
    (h2 : p ≠ .doneSkip) (h3 : p ≠ .doneDiscard) :
    p = .doneHit ∨ p = .doneOk ∨ p = .doneFail := by
  cases p
  · exact Bool.noConfusion h1
  · exact Bool.noConfusion h1
  · exact Or.inl rfl
  · exact Or.inr (Or.inl rfl)
  · exact Or.inr (Or.inr rfl)
  · exact absurd rfl h2
  · exact absurd rfl h3

theorem countP_partition_done (l : List HPhase)
    (h : ∀ p ∈ l, p = .doneHit ∨ p = .doneOk ∨ p = .doneFail) :
    l.countP (fun p => p == HPhase.doneHit || p == HPhase.doneOk)
      + l.countP (fun p => p == HPhase.doneFail) = l.length := by
  induction l with
  | nil => rfl
  | cons x xs ih =>
    rw [List.countP_cons, List.countP_cons, List.length_cons]
    have hxs : ∀ p ∈ xs, p = HPhase.doneHit ∨ p = HPhase.doneOk ∨
        p = HPhase.doneFail := fun p hp => h p (List.mem_cons_of_mem _ hp)
    have hihs := ih hxs
    rcases h x (List.mem_cons_self _ _) with rfl | rfl | rfl
    · rw [if_pos (by decide), if_neg (by decide)]
      omega
    · rw [if_pos (by decide), if_neg (by decide)]
      omega
    · rw [if_neg (by decide), if_pos (by decide)]
      omega

/-- C4: after `cancelTranslation` during a session, the progress pair reads
`{completed: 0, total: 0}`, the completion callback has not fired and can
no longer fire (the callback step is disabled), and the continuation of any
in-flight item whose service call later resolves discards the result: the
subtitle texts, the hook cache and the progress are untouched. -/
theorem cancel_zeroes_progress_and_blocks_callback
    (out : Nat → Option String) (orig : List String) (tgt : String)
    (s : HState) (hs : HReach out (hInit orig tgt) s)
    (hc : s.cancelled = true) :
    s.completed = 0 ∧ s.total = 0 ∧ s.callbackFired = false ∧
    hstep out s .finishSession = none ∧
    (∀ (i : Nat) (t v : String), s.phases[i]? = some .running →
        s.orig[i]? = some t → out i = some v →
        hstep out s (.finish i)
          = some { s with phases := s.phases.set i .doneDiscard }) := by
  have hinv := HInv_reach out orig tgt s hs
  obtain ⟨h0, ht0, hcb⟩ := hinv.cancelZero hc
  refine ⟨h0, ht0, hcb, ?_, ?_⟩
  · rw [hstep, if_pos hc]
  · intro i t v hph hor hout
    rw [hstep, hph, hor]
    dsimp only
    rw [hout]
    dsimp only
    rw [if_pos hc]

/-- A remote stub resolving every item with "译". -/
def c4Out : Nat → Option String := fun _ => some "译"

/-- One item started and in flight. -/
def c4S1 : HState := ⟨["a"], ["a"], [], 0, 1, false, false, [.running], "zh"⟩

/-- The session cancelled while the item is in flight. -/
def c4S : HState := ⟨["a"], ["a"], [], 0, 0, true, false, [.running], "zh"⟩

/-- Witness for C4: in the cancelled state the callback step is disabled and
the in-flight item's resolution is discarded. -/
theorem cancel_zeroes_progress_and_blocks_callback_witness :
    hstep c4Out c4S .finishSession = none ∧
    hstep c4Out c4S (.finish 0)
      = some { c4S with phases := c4S.phases.set 0 .doneDiscard } := by
  obtain ⟨-, -, -, h4, h5⟩ :=
    cancel_zeroes_progress_and_blocks_callback c4Out ["a"] "zh" c4S
      (HReach.step c4S1 .cancel c4S
        (HReach.step (hInit ["a"] "zh") (.start 0) c4S1 HReach.refl (by decide))
        (by decide))
      rfl
  exact ⟨h4, h5 0 "a" "译" rfl rfl rfl⟩

/-- C5: a failed record's subtitle text is its original source text, in
every reachable state; and the failure continuation itself is always
enabled and changes nothing but that record's text slot and phase — the
cancellation flag, the progress pair, the hook cache and every other item
are untouched, so the session keeps processing the remaining records. -/
theorem failed_record_keeps_original_and_session_continues
    (out : Nat → Option String) (orig : List String) (tgt : String)
    (s : HState) (hs : HReach out (hInit orig tgt) s) :
    (∀ (i : Nat), s.phases[i]? = some .doneFail → s.subs[i]? = s.orig[i]?) ∧
    (∀ (i : Nat) (t : String), s.phases[i]? = some .running →
        s.orig[i]? = some t → out i = none →
        hstep out s (.finish i)
          = some { s with subs := s.subs.set i t,
                          phases := s.phases.set i .doneFail }) := by
  have hinv := HInv_reach out orig tgt s hs
  refine ⟨hinv.failOrig, ?_⟩
  intro i t hph hor hout
  rw [hstep, hph, hor]
  dsimp only
  rw [hout]

/-- A remote stub: item 0 rejects, any other item resolves with "你". -/
def c5Out : Nat → Option String := fun i => if i = 0 then none else some "你"

/-- Item 0 started. -/
def c5S1 : HState :=
  ⟨["x", "y"], ["x", "y"], [], 0, 2, false, false, [.running, .notStarted], "zh"⟩

/-- Both items in flight. -/
def c5S2 : HState :=
  ⟨["x", "y"], ["x", "y"], [], 0, 2, false, false, [.running, .running], "zh"⟩

/-- Item 0 failed (kept "x"), item 1 still in flight. -/
def c5S3 : HState :=
  ⟨["x", "y"], ["x", "y"], [], 0, 2, false, false, [.doneFail, .running], "zh"⟩

/-- Item 1 succeeded: the session completed with one failure. -/
def c5S4 : HState :=
  ⟨["x", "你"], ["x", "y"], [("y_zh", "你")], 1, 2, false, false,
    [.doneFail, .doneOk], "zh"⟩

theorem c5_reach2 : HReach c5Out (hInit ["x", "y"] "zh") c5S2 :=
  HReach.step c5S1 (.start 1) c5S2
    (HReach.step (hInit ["x", "y"] "zh") (.start 0) c5S1 HReach.refl (by decide))
    (by decide)

theorem c5_reach4 : HReach c5Out (hInit ["x", "y"] "zh") c5S4 :=
  HReach.step c5S3 (.finish 1) c5S4
    (HReach.step c5S2 (.finish 0) c5S3 c5_reach2 (by decide))
    (by decide)

/-- Witness for C5: the failure step of item 0 only degrades that record,
and in the completed session the failed record still shows its original
text. -/
theorem failed_record_keeps_original_and_session_continues_witness :
    hstep c5Out c5S2 (.finish 0)
      = some { c5S2 with subs := c5S2.subs.set 0 "x",
                         phases := c5S2.phases.set 0 .doneFail } ∧
    c5S4.subs[0]? = c5S4.orig[0]? := by
  refine ⟨?_, ?_⟩
  · exact (failed_record_keeps_original_and_session_continues c5Out
      ["x", "y"] "zh" c5S2 c5_reach2).2 0 "x" rfl rfl rfl
  · exact (failed_record_keeps_original_and_session_continues c5Out
      ["x", "y"] "zh" c5S4 c5_reach4).1 0 rfl

/-- C9: while not cancelled, `completed` counts exactly the items finished
through the cache-hit or success paths — failed items never increment it;
when every item has returned, `completed` plus the failed-item count equals
`total`, a session with at least one failure reaches its completion point
with `completed < total`, and the completion callback fires from exactly
that state. -/
theorem completion_counts_exclude_failures
    (out : Nat → Option String) (orig : List String) (tgt : String)
    (s : HState) (hs : HReach out (hInit orig tgt) s)
    (hnc : s.cancelled = false) :
    s.completed = s.phases.countP (fun p => p == HPhase.doneHit || p == HPhase.doneOk) ∧
    (s.phases.all HPhase.isDone = true →
      s.completed + s.phases.countP (fun p => p == HPhase.doneFail) = s.total ∧
      (s.phases.countP (fun p => p == HPhase.doneFail) ≠ 0 →
        s.completed < s.total) ∧
      (s.callbackFired = false →
        hstep out s .finishSession = some { s with callbackFired := true })) := by
  have hinv := HInv_reach out orig tgt s hs
  refine ⟨hinv.completedCount hnc, ?_⟩
  intro hall
  have hmem : ∀ p ∈ s.phases, p = HPhase.doneHit ∨ p = HPhase.doneOk ∨
      p = HPhase.doneFail := by
    intro p hp
    have hp' : ∃ i : Nat, s.phases[i]? = some p := by
      rw [List.mem_iff_getElem?] at hp
      exact hp
    obtain ⟨j, hj⟩ := hp'
    have hns := hinv.noSkip hnc j p hj
    have hd : p.isDone = true := by
      rw [List.all_eq_true] at hall
      exact hall p (List.getElem?_mem hj)
    exact HPhase.done_cases p hd hns.1 hns.2
  have hpart := countP_partition_done s.phases hmem
  have hcomp := hinv.completedCount hnc
  have htot := hinv.totalLen hnc
  refine ⟨by omega, fun hfz => by omega, ?_⟩
  intro hcb
  rw [hstep, if_neg (by rw [hnc]; decide), if_neg (by rw [hcb]; decide),
    if_pos hall]

/-- Witness for C9 at the completed one-failure session: `1 + 1 = 2`,
`completed < total`, and the callback fires with that progress. -/
theorem completion_counts_exclude_failures_witness :
    c5S4.completed + c5S4.phases.countP (fun p => p == HPhase.doneFail)
      = c5S4.total ∧
    c5S4.completed < c5S4.total ∧
    hstep c5Out c5S4 .finishSession = some { c5S4 with callbackFired := true } := by
  obtain ⟨-, h2⟩ :=
    completion_counts_exclude_failures c5Out ["x", "y"] "zh" c5S4 c5_reach4 rfl
  obtain ⟨ha, hb, hc⟩ := h2 (by decide)
  exact ⟨ha, hb (by decide), hc rfl⟩
